import Mathlib

/-!
# Verification of the GeminiTL translation-orchestration engine

A shallow embedding, in Lean 4, of the core orchestration code of the
GeminiTL repository: the provider fallback manager
(`src/ai_providers/provider_manager.py`), the provider adapter retry loop
(`src/ai_providers/gemini_provider.py` together with
`src/ai_providers/base_provider.py`), the cancellable sleep utility and
chapter classification helpers (`src/proofing/utils.py`), the per-file
size-deviation retry policy of the translation phase
(`src/translation/translationManager.py`), and the image-tag placeholder
round trip (`src/translation/multi_provider_translator.py`).

Python strings are modelled as `List Char`; Python floats are modelled as
exact rationals (`ℚ`); fallible calls are modelled as `Option`/sum types;
the external network calls are modelled as oracle functions supplied as
arguments (one result per invocation index), so that each control-flow
path of the source is represented exactly.
-/

namespace GeminiTL

/-- Python strings, modelled as lists of characters. -/
abbrev Chars := List Char

/-- `startsWithCh pat s` holds when `pat` is an initial segment of `s`
(the building block for Python's substring test). -/
def startsWithCh : Chars → Chars → Bool
  | [], _ => true
  | _ :: _, [] => false
  | p :: ps, c :: cs => p == c && startsWithCh ps cs

/-- Python's `pat in s` substring test on strings. -/
def containsSeq (pat : Chars) : Chars → Bool
  | [] => pat.isEmpty
  | c :: cs => startsWithCh pat (c :: cs) || containsSeq pat cs

/-- Python's `str.lower()` (for the ASCII error-message keywords that the
source matches against). -/
def pyLower (s : Chars) : Chars := s.map Char.toLower

/-- Python's `str.strip()`: remove leading and trailing whitespace. -/
def pyStrip (s : Chars) : Chars :=
  ((s.dropWhile Char.isWhitespace).reverse.dropWhile Char.isWhitespace).reverse

/-- Python's `len(s.encode("utf-8"))`: UTF-8 byte length of a string. -/
def utf8Len (s : Chars) : ℕ := (s.map Char.utf8Size).sum

/-- `TranslationResult` from `src/ai_providers/base_provider.py`:
container for translation results with metadata.  The wall-clock
`timestamp` attribute is not modelled (real time). -/
structure TranslationResult where
  text : Chars
  success : Bool
  error : Option Chars := none
  provider : Option Chars := none
  model : Option Chars := none
  tokens_used : Option ℕ := none
  cost : Option ℚ := none
  deriving Repr, DecidableEq

/-! ## Fallback delay classification

`ProviderManager._calculate_fallback_delay` from
`src/ai_providers/provider_manager.py` (lines 201–238).  The
`retry_settings` dictionary reads `base_delay` (default 1.0) and
`exponential_backoff` (default True); both are passed here explicitly. -/

/-- The rate-limit keyword list of `_calculate_fallback_delay`. -/
def rateLimitTerms : List Chars := ["rate limit".toList, "quota".toList, "throttle".toList]

/-- The authentication/config keyword list of `_calculate_fallback_delay`. -/
def authTerms : List Chars := ["auth".toList, "key".toList, "credential".toList, "permission".toList]

/-- The API-error keyword list of `_calculate_fallback_delay`. -/
def apiTerms : List Chars := ["api".toList, "server".toList, "network".toList, "timeout".toList]

/-- `ProviderManager._calculate_fallback_delay(error_message, attempt_number,
retry_settings)`: intelligent delay before trying the next provider.
`error_message = none` models Python `None` (mapped to `""` by the
`if not error_message` guard, which also catches the empty string). -/
def calculate_fallback_delay (error_message : Option Chars) (attempt_number : ℕ)
    (base_delay : ℚ) (exponential_backoff : Bool) : ℚ :=
  let msg : Chars := match error_message with
    | none => []
    | some m => if m.isEmpty then [] else m
  let error_lower := pyLower msg
  if rateLimitTerms.any (fun term => containsSeq term error_lower) then
    base_delay * 3 * ((attempt_number : ℚ) + 1)
  else if authTerms.any (fun term => containsSeq term error_lower) then
    base_delay * (1/2)
  else if apiTerms.any (fun term => containsSeq term error_lower) then
    base_delay * 2
  else if exponential_backoff then
    base_delay * 2 ^ attempt_number
  else
    base_delay

/-- Modelled from the claim's words (C4): the delay classification as the
specification states it — case-insensitive substring matching, first
matching rule wins, with the four rule groups and their formulas. -/
def fallbackDelaySpec (error_message : Option Chars) (attempt_number : ℕ)
    (base_delay : ℚ) (exponential_backoff : Bool) : ℚ :=
  let lowered := pyLower (error_message.getD [])
  let hasAny := fun (terms : List Chars) => terms.any (fun t => containsSeq t lowered)
  if hasAny rateLimitTerms then base_delay * 3 * ((attempt_number : ℚ) + 1)
  else if hasAny authTerms then base_delay * (1/2)
  else if hasAny apiTerms then base_delay * 2
  else if exponential_backoff then base_delay * 2 ^ attempt_number
  else base_delay

/-- C4: For every error text, zero-based attempt index and base delay, the
inter-provider delay follows the case-insensitive, first-match-wins
classification: rate-limit terms give `base * 3 * (i+1)`, auth terms give
`base * 0.5`, API terms give `base * 2`, and otherwise `base * 2^i` under
exponential backoff or the flat `base` without it. -/
theorem claim_C4_delay_classification (error_message : Option Chars)
    (attempt_number : ℕ) (base_delay : ℚ) (exponential_backoff : Bool) :
    calculate_fallback_delay error_message attempt_number base_delay exponential_backoff =
      fallbackDelaySpec error_message attempt_number base_delay exponential_backoff := by
  cases error_message with
  | none => rfl
  | some m =>
      cases m with
      | nil => rfl
      | cons c cs => rfl

/-- C10: the delay computation is total over the error-message argument —
with an absent (`None`) or empty error message no rule matches and the
default branch applies: `base * 2^i` under exponential backoff, else the
flat base delay. -/
theorem claim_C10_delay_total_on_missing_error (attempt_number : ℕ)
    (base_delay : ℚ) (exponential_backoff : Bool) :
    calculate_fallback_delay none attempt_number base_delay exponential_backoff =
      (if exponential_backoff then base_delay * 2 ^ attempt_number else base_delay) ∧
    calculate_fallback_delay (some []) attempt_number base_delay exponential_backoff =
      (if exponential_backoff then base_delay * 2 ^ attempt_number else base_delay) := by
  constructor <;> rfl

/-! ## Provider try-order and fallback loop

`ProviderManager.translate_with_fallback` from
`src/ai_providers/provider_manager.py` (lines 56–139).  The configuration
reads (`config_manager.get_fallback_providers()`,
`config_manager.get_default_provider()`) and the availability state
(`get_available_providers()`, which `get_provider` re-checks) are passed
as explicit arguments; each provider's `translate` call is modelled by an
oracle `trans` giving the result of invoking that provider once (every
provider is invoked at most once per fallback run). -/

/-- The provider-order computation at the head of `translate_with_fallback`
(lines 73–90).  `preferred = some p` with `p = []` models a Python-falsy
empty preferred-provider string, which the `if preferred_provider and ...`
guard sends to the default branch. -/
def computeProviderOrder (avail : Chars → Bool) (fallbacks : List Chars)
    (defaultProvider : Chars) (preferred : Option Chars) : List Chars :=
  let defaultBranch : List Chars :=
    if avail defaultProvider then
      defaultProvider :: fallbacks.filter (fun p => p ≠ defaultProvider)
    else
      fallbacks
  let order : List Chars :=
    match preferred with
    | some p => if ¬ p.isEmpty ∧ avail p = true then p :: fallbacks.filter (fun q => q ≠ p)
                else defaultBranch
    | none => defaultBranch
  order.filter (fun p => avail p)

/-- The provider loop of `translate_with_fallback` (lines 100–139):
try each provider of `order` in turn (skipping any for which
`get_provider` returns `None`), return the first successful result,
otherwise fall through while recording the last error, and finally build
the all-providers-failed result.  The second component is the list of
providers whose `translate` was actually invoked, in invocation order.
A `None` stored in `last_error` renders as the string `"None"` inside the
final f-string, which is what `Option.getD` with `"None"` reproduces. -/
def tryProvidersLoop (avail : Chars → Bool) (trans : Chars → TranslationResult) :
    List Chars → Chars → TranslationResult × List Chars
  | [], lastError =>
      ({ text := [], success := false,
         error := some ("All providers failed. Last error: ".toList ++ lastError),
         provider := some "Multiple".toList }, [])
  | name :: rest, lastError =>
      if avail name then
        let r := trans name
        if r.success then (r, [name])
        else
          let next := tryProvidersLoop avail trans rest (r.error.getD "None".toList)
          (next.1, name :: next.2)
      else tryProvidersLoop avail trans rest lastError

/-- `ProviderManager.translate_with_fallback`: compute the try-order, fail
immediately with "No available providers" if it is empty, otherwise run
the provider loop starting from `last_error = "Unknown error"`. -/
def translate_with_fallback (avail : Chars → Bool) (trans : Chars → TranslationResult)
    (fallbacks : List Chars) (defaultProvider : Chars) (preferred : Option Chars) :
    TranslationResult × List Chars :=
  let order := computeProviderOrder avail fallbacks defaultProvider preferred
  if order.isEmpty then
    ({ text := [], success := false,
       error := some "No available providers".toList,
       provider := some "None".toList }, [])
  else
    tryProvidersLoop avail trans order "Unknown error".toList

/-- Every provider in the computed try-order is available (the final
filter of the order computation). -/
theorem mem_computeProviderOrder_avail (avail : Chars → Bool) (fallbacks : List Chars)
    (defaultProvider : Chars) (preferred : Option Chars) (p : Chars)
    (hp : p ∈ computeProviderOrder avail fallbacks defaultProvider preferred) :
    avail p = true := by
  unfold computeProviderOrder at hp
  simp only [List.mem_filter] at hp
  exact hp.2

/-- The provider loop short-circuits: with every provider of `before`
available but failing, and `p` available and succeeding, the loop returns
`p`'s result having invoked exactly `before ++ [p]`, for any accumulated
`lastError`. -/
theorem tryProvidersLoop_short_circuit (avail : Chars → Bool)
    (trans : Chars → TranslationResult) (after : List Chars) (p : Chars)
    (hp : avail p = true) (hsucc : (trans p).success = true) :
    ∀ (before : List Chars), (∀ q ∈ before, avail q = true) →
      (∀ q ∈ before, (trans q).success = false) → ∀ lastError : Chars,
      tryProvidersLoop avail trans (before ++ p :: after) lastError
        = (trans p, before ++ [p]) := by
  intro before
  induction before with
  | nil =>
      intro _ _ lastError
      simp [tryProvidersLoop, hp, hsucc]
  | cons q qs ih =>
      intro havail hfail lastError
      have hq : avail q = true := havail q (by simp)
      have hqf : (trans q).success = false := hfail q (by simp)
      simp only [List.cons_append, tryProvidersLoop, hq, if_true, hqf,
        Bool.false_eq_true, if_false, List.append_eq]
      rw [ih (fun r hr => havail r (List.mem_cons_of_mem q hr))
        (fun r hr => hfail r (List.mem_cons_of_mem q hr))]

/-- C2: if the computed try-order splits as `before ++ p :: after` where
every provider in `before` fails and `p` succeeds, the fallback run
returns `p`'s result and invokes exactly the providers of `before`
followed by `p` — no provider of `after` is ever invoked. -/
theorem claim_C2_fallback_short_circuit (avail : Chars → Bool)
    (trans : Chars → TranslationResult) (fallbacks : List Chars)
    (defaultProvider : Chars) (preferred : Option Chars)
    (before after : List Chars) (p : Chars)
    (horder : computeProviderOrder avail fallbacks defaultProvider preferred
        = before ++ p :: after)
    (hfail : ∀ q ∈ before, (trans q).success = false)
    (hsucc : (trans p).success = true) :
    translate_with_fallback avail trans fallbacks defaultProvider preferred
      = (trans p, before ++ [p]) := by
  have havail : ∀ q ∈ before ++ p :: after, avail q = true := by
    intro q hq
    exact mem_computeProviderOrder_avail avail fallbacks defaultProvider preferred q
      (horder ▸ hq)
  unfold translate_with_fallback
  rw [horder]
  have hne : ((before ++ p :: after).isEmpty) = false := by
    cases before <;> simp
  simp only [hne, Bool.false_eq_true, if_false]
  exact tryProvidersLoop_short_circuit avail trans after p
    (havail p (by simp)) hsucc before
    (fun q hq => havail q (List.mem_append_left _ hq)) hfail _

/-- Closed witness for the short-circuit theorem: with order
`[g, o]` where `g` fails and `o` succeeds, the fallback run returns `o`'s
result after invoking `g` then `o`. -/
theorem claim_C2_fallback_short_circuit_witness :
    translate_with_fallback (fun p => p = "g".toList ∨ p = "o".toList)
        (fun p => if p = "g".toList
          then { text := [], success := false, error := some "boom".toList }
          else { text := "ok".toList, success := true })
        ["o".toList] "g".toList none
      = ({ text := "ok".toList, success := true },
         ["g".toList, "o".toList]) := by
  have := claim_C2_fallback_short_circuit
    (fun p => p = "g".toList ∨ p = "o".toList)
    (fun p => if p = "g".toList
      then { text := [], success := false, error := some "boom".toList }
      else { text := "ok".toList, success := true })
    ["o".toList] "g".toList none
    ["g".toList] [] "o".toList
    (by decide) (by decide) (by decide)
  simpa using this

/-- One-step unfolding of the provider loop on a non-empty order. -/
theorem tryProvidersLoop_cons (avail : Chars → Bool)
    (trans : Chars → TranslationResult) (name : Chars) (rest : List Chars)
    (lastError : Chars) :
    tryProvidersLoop avail trans (name :: rest) lastError
      = (if avail name then
          let r := trans name
          if r.success then (r, [name])
          else
            let next := tryProvidersLoop avail trans rest (r.error.getD "None".toList)
            (next.1, name :: next.2)
        else tryProvidersLoop avail trans rest lastError) := rfl

/-- The provider loop, when every provider of the (available, non-empty)
order fails, returns the all-providers-failed result built from the last
provider's error. -/
theorem tryProvidersLoop_all_fail (avail : Chars → Bool)
    (trans : Chars → TranslationResult) :
    ∀ (order : List Chars) (hord : order ≠ []),
      (∀ q ∈ order, avail q = true) →
      (∀ q ∈ order, (trans q).success = false) → ∀ lastError : Chars,
      tryProvidersLoop avail trans order lastError
        = ({ text := [], success := false,
             error := some ("All providers failed. Last error: ".toList ++
               ((trans (order.getLast hord)).error.getD "None".toList)),
             provider := some "Multiple".toList }, order) := by
  intro order
  induction order with
  | nil => intro h; exact absurd rfl h
  | cons q qs ih =>
      intro _ havail hfail lastError
      have hq : avail q = true := havail q (by simp)
      have hqf : (trans q).success = false := hfail q (by simp)
      cases qs with
      | nil =>
          rw [tryProvidersLoop_cons]
          simp [tryProvidersLoop, hq, hqf]
      | cons r rs =>
          have hrec := ih (by simp)
            (fun x hx => havail x (List.mem_cons_of_mem q hx))
            (fun x hx => hfail x (List.mem_cons_of_mem q hx))
            ((trans q).error.getD "None".toList)
          rw [tryProvidersLoop_cons]
          simp only [hq, if_true, hqf, Bool.false_eq_true, if_false, hrec]
          simp [List.getLast_cons]

/-- C6: when the computed try-order is non-empty and every provider in it
fails, the fallback run returns a failed result whose error text contains
the error message of the last provider that failed. -/
theorem claim_C6_all_providers_fail_error (avail : Chars → Bool)
    (trans : Chars → TranslationResult) (fallbacks : List Chars)
    (defaultProvider : Chars) (preferred : Option Chars)
    (order : List Chars) (hord : order ≠ [])
    (horder : computeProviderOrder avail fallbacks defaultProvider preferred = order)
    (hfail : ∀ q ∈ order, (trans q).success = false)
    (lastMsg : Chars)
    (hlast : (trans (order.getLast hord)).error = some lastMsg) :
    (translate_with_fallback avail trans fallbacks defaultProvider preferred).1.success
        = false ∧
    ∃ s t : Chars,
      (translate_with_fallback avail trans fallbacks defaultProvider preferred).1.error
        = some (s ++ lastMsg ++ t) := by
  have havail : ∀ q ∈ order, avail q = true := by
    intro q hq
    exact mem_computeProviderOrder_avail avail fallbacks defaultProvider preferred q
      (horder ▸ hq)
  have hne : order.isEmpty = false := by
    cases order with
    | nil => exact absurd rfl hord
    | cons a as => simp
  unfold translate_with_fallback
  rw [horder]
  simp only [hne, Bool.false_eq_true, if_false]
  rw [tryProvidersLoop_all_fail avail trans order hord havail hfail]
  refine ⟨rfl, "All providers failed. Last error: ".toList, [], ?_⟩
  simp [hlast]

/-- Closed witness for the all-providers-fail theorem: with order `[g, o]`
where both providers fail, the run fails and the error text embeds the
last provider's message. -/
theorem claim_C6_all_providers_fail_error_witness :
    (translate_with_fallback (fun p => p = "g".toList ∨ p = "o".toList)
        (fun p => if p = "g".toList
          then { text := [], success := false, error := some "early".toList }
          else { text := [], success := false, error := some "late".toList })
        ["o".toList] "g".toList none).1.success = false ∧
    ∃ s t : Chars,
      (translate_with_fallback (fun p => p = "g".toList ∨ p = "o".toList)
          (fun p => if p = "g".toList
            then { text := [], success := false, error := some "early".toList }
            else { text := [], success := false, error := some "late".toList })
          ["o".toList] "g".toList none).1.error
        = some (s ++ "late".toList ++ t) :=
  claim_C6_all_providers_fail_error
    (fun p => p = "g".toList ∨ p = "o".toList)
    (fun p => if p = "g".toList
      then { text := [], success := false, error := some "early".toList }
      else { text := [], success := false, error := some "late".toList })
    ["o".toList] "g".toList none
    ["g".toList, "o".toList] (by decide) (by decide)
    (by decide) "late".toList (by decide)

/-- Modelled from the claim's words (C5): the try-order as the claim
states it — the preferred provider first when given and available,
followed by the configured fallback order with the preferred provider
removed **and duplicates removed**; otherwise the configured default
provider first followed by the remainder of the fallback order; filtered
to currently initialized providers. -/
def providerOrderClaimSpec (avail : Chars → Bool) (fallbacks : List Chars)
    (defaultProvider : Chars) (preferred : Option Chars) : List Chars :=
  let order : List Chars :=
    match preferred with
    | some p =>
        if ¬ p.isEmpty ∧ avail p = true then
          p :: ((fallbacks.filter (fun q => q ≠ p)).dedup)
        else if avail defaultProvider then
          defaultProvider :: fallbacks.filter (fun q => q ≠ defaultProvider)
        else fallbacks
    | none =>
        if avail defaultProvider then
          defaultProvider :: fallbacks.filter (fun q => q ≠ defaultProvider)
        else fallbacks
  order.filter (fun p => avail p)

/-- Counterexample to C5 as stated: with preferred provider `p` available
and the configured fallback order `[a, a]` (a duplicated entry), the code
keeps both copies of `a`, while the claim's de-duplicated order drops
one. -/
theorem claim_C5_counterexample :
    computeProviderOrder (fun s => s = "p".toList ∨ s = "a".toList)
        ["a".toList, "a".toList] "d".toList (some "p".toList)
      = ["p".toList, "a".toList, "a".toList] ∧
    providerOrderClaimSpec (fun s => s = "p".toList ∨ s = "a".toList)
        ["a".toList, "a".toList] "d".toList (some "p".toList)
      = ["p".toList, "a".toList] ∧
    computeProviderOrder (fun s => s = "p".toList ∨ s = "a".toList)
        ["a".toList, "a".toList] "d".toList (some "p".toList)
      ≠ providerOrderClaimSpec (fun s => s = "p".toList ∨ s = "a".toList)
        ["a".toList, "a".toList] "d".toList (some "p".toList) := by
  refine ⟨by decide, by decide, by decide⟩

/-- Modelled from the claim's words as amended (C5): the preferred
provider (when given as a non-empty name and available) first, followed by
the configured fallback order with every occurrence of the preferred
provider removed (duplicates of other entries are preserved); otherwise
the configured default provider first (when available) followed by the
fallback order with the default removed, or the bare fallback order when
the default is unavailable; filtered to currently initialized
providers. -/
def providerOrderAmendedSpec (avail : Chars → Bool) (fallbacks : List Chars)
    (defaultProvider : Chars) (preferred : Option Chars) : List Chars :=
  let order : List Chars :=
    match preferred with
    | some p =>
        if ¬ p.isEmpty ∧ avail p = true then
          p :: fallbacks.filter (fun q => q ≠ p)
        else if avail defaultProvider then
          defaultProvider :: fallbacks.filter (fun q => q ≠ defaultProvider)
        else fallbacks
    | none =>
        if avail defaultProvider then
          defaultProvider :: fallbacks.filter (fun q => q ≠ defaultProvider)
        else fallbacks
  order.filter (fun p => avail p)

/-- C5 (amended): for every configuration, the try-order computed by
`translate_with_fallback` equals the amended description — the preferred
provider first when given (non-empty) and available, followed by the
fallback order with all occurrences of the preferred provider removed
(other duplicates preserved); otherwise the default provider first when
available, followed by the fallback order minus the default; all filtered
to initialized providers. -/
theorem claim_C5_provider_order_amended (avail : Chars → Bool)
    (fallbacks : List Chars) (defaultProvider : Chars)
    (preferred : Option Chars) :
    computeProviderOrder avail fallbacks defaultProvider preferred
      = providerOrderAmendedSpec avail fallbacks defaultProvider preferred := by
  unfold computeProviderOrder providerOrderAmendedSpec
  cases preferred with
  | none => rfl
  | some p => rfl

/-! ## Cancellable sleep

`cancellable_sleep(duration, cancel_flag=None, check_interval=0.5)` from
`src/proofing/utils.py` (lines 105–123).  Real time is modelled by
recording the list of slice lengths passed to `time.sleep`; the
cancellation predicate is sampled by check index (`cancel idx` is the
value the Python callable returns at the `idx`-th check). -/

/-- The `while elapsed < duration` loop of `cancellable_sleep`, with
explicit fuel (the wrapper passes enough fuel for the loop to run to
completion).  Returns the completion flag and the slept slices. -/
def cancellable_sleep_go (duration : ℚ) (cancel : ℕ → Bool) (check_interval : ℚ) :
    ℕ → ℚ → ℕ → Bool × List ℚ
  | 0, _, _ => (true, [])
  | fuel + 1, elapsed, idx =>
      if elapsed < duration then
        if cancel idx then (false, [])
        else
          let sleep_time := min check_interval (duration - elapsed)
          let rest := cancellable_sleep_go duration cancel check_interval fuel
            (elapsed + sleep_time) (idx + 1)
          (rest.1, sleep_time :: rest.2)
      else (true, [])

/-- `cancellable_sleep`: with no cancel flag (`None`), a single
`time.sleep(duration)`; otherwise the slice loop.  The fuel
`⌈duration / check_interval⌉ + 1` dominates the number of loop
iterations. -/
def cancellable_sleep (duration : ℚ) (cancel : Option (ℕ → Bool))
    (check_interval : ℚ) : Bool × List ℚ :=
  match cancel with
  | none => (true, [duration])
  | some c =>
      cancellable_sleep_go duration c check_interval
        ((⌈duration / check_interval⌉).toNat + 1) 0 0

/-- Every slice produced by the sleep loop is at most the check
interval. -/
theorem cancellable_sleep_go_slices (duration : ℚ) (cancel : ℕ → Bool)
    (check_interval : ℚ) :
    ∀ (fuel : ℕ) (elapsed : ℚ) (idx : ℕ),
      ∀ s ∈ (cancellable_sleep_go duration cancel check_interval fuel elapsed idx).2,
        s ≤ check_interval := by
  intro fuel
  induction fuel with
  | zero => intro e i s hs; simp [cancellable_sleep_go] at hs
  | succ n ih =>
      intro e i s hs
      by_cases he : e < duration
      · by_cases hc : cancel i
        · simp [cancellable_sleep_go, he, hc] at hs
        · simp only [cancellable_sleep_go, he, if_true, hc, Bool.false_eq_true,
            if_false, List.mem_cons] at hs
          rcases hs with h | h
          · rw [h]; exact min_le_left _ _
          · exact ih _ _ s h
      · simp [cancellable_sleep_go, he] at hs

/-- When the predicate never fires and the fuel is sufficient, the sleep
loop completes and the slept slices sum to the remaining duration. -/
theorem cancellable_sleep_go_no_cancel (duration : ℚ) (cancel : ℕ → Bool)
    (check_interval : ℚ) (hci : 0 < check_interval)
    (hnever : ∀ k, cancel k = false) :
    ∀ (fuel : ℕ) (elapsed : ℚ) (idx : ℕ),
      duration ≤ elapsed + fuel * check_interval →
      (cancellable_sleep_go duration cancel check_interval fuel elapsed idx).1 = true ∧
      (cancellable_sleep_go duration cancel check_interval fuel elapsed idx).2.sum
        = max (duration - elapsed) 0 := by
  intro fuel
  induction fuel with
  | zero =>
      intro e i hfuel
      simp only [Nat.cast_zero, zero_mul, add_zero] at hfuel
      refine ⟨rfl, ?_⟩
      simp [cancellable_sleep_go, max_eq_right (by linarith : duration - e ≤ 0)]
  | succ n ih =>
      intro e i hfuel
      by_cases he : e < duration
      · have hc := hnever i
        have hsle : min check_interval (duration - e) ≤ duration - e := min_le_right _ _
        have hrec := ih (e + min check_interval (duration - e)) (i + 1) (by
          rcases min_cases check_interval (duration - e) with ⟨hmin, _⟩ | ⟨hmin, _⟩
          · rw [hmin]
            push_cast at hfuel ⊢
            linarith
          · rw [hmin]
            have : (0:ℚ) ≤ (n : ℚ) * check_interval :=
              mul_nonneg (Nat.cast_nonneg n) (le_of_lt hci)
            linarith)
        simp only [cancellable_sleep_go, he, if_true, hc, Bool.false_eq_true,
          if_false, List.sum_cons]
        refine ⟨hrec.1, ?_⟩
        rw [hrec.2]
        rw [max_eq_left (by linarith : (0:ℚ) ≤ duration - (e + min check_interval (duration - e))),
          max_eq_left (by linarith : (0:ℚ) ≤ duration - e)]
        ring
      · refine ⟨by simp [cancellable_sleep_go, he], ?_⟩
        simp [cancellable_sleep_go, he,
          max_eq_right (by linarith : duration - e ≤ 0)]

/-- When the predicate first fires at the `k0`-th check from the current
position, and that check is reached strictly inside the duration, the
sleep loop stops with `false` after exactly `k0` full slices. -/
theorem cancellable_sleep_go_cancelled (duration : ℚ) (cancel : ℕ → Bool)
    (check_interval : ℚ) (hci : 0 < check_interval) :
    ∀ (fuel k0 : ℕ) (elapsed : ℚ) (idx : ℕ),
      cancel (idx + k0) = true →
      (∀ j, j < k0 → cancel (idx + j) = false) →
      elapsed + k0 * check_interval < duration →
      duration ≤ elapsed + fuel * check_interval →
      cancellable_sleep_go duration cancel check_interval fuel elapsed idx
        = (false, List.replicate k0 check_interval) := by
  intro fuel
  induction fuel with
  | zero =>
      intro k0 e i _ _ hlt hfuel
      exfalso
      have h0 : (0:ℚ) ≤ (k0 : ℚ) * check_interval :=
        mul_nonneg (Nat.cast_nonneg k0) (le_of_lt hci)
      simp only [Nat.cast_zero, zero_mul, add_zero] at hfuel
      linarith
  | succ n ih =>
      intro k0 e i hfire hbefore hlt hfuel
      have h0 : (0:ℚ) ≤ (k0 : ℚ) * check_interval :=
        mul_nonneg (Nat.cast_nonneg k0) (le_of_lt hci)
      have he : e < duration := by linarith
      cases k0 with
      | zero =>
          have hc : cancel i = true := by simpa using hfire
          simp [cancellable_sleep_go, he, hc]
      | succ m =>
          have hc : cancel i = false := by
            have := hbefore 0 (Nat.succ_pos m)
            simpa using this
          have hmin : min check_interval (duration - e) = check_interval := by
            apply min_eq_left
            have hm1 : check_interval ≤ ((m : ℚ) + 1) * check_interval := by
              nlinarith [Nat.cast_nonneg (α := ℚ) m]
            push_cast at hlt
            linarith
          have hrec := ih m (e + check_interval) (i + 1)
            (by have hidx : i + 1 + m = i + (m + 1) := by omega
                rw [hidx]; exact hfire)
            (fun j hj => by
              have hidx : i + 1 + j = i + (j + 1) := by omega
              rw [hidx]; exact hbefore (j + 1) (Nat.succ_lt_succ hj))
            (by push_cast at hlt ⊢; linarith)
            (by push_cast at hfuel ⊢; linarith)
          simp only [cancellable_sleep_go, he, if_true, hc, Bool.false_eq_true,
            if_false, hmin, hrec, List.replicate_succ]

/-- The default fuel passed by `cancellable_sleep` is enough for the loop
to run to completion. -/
theorem cancellable_sleep_fuel_enough (duration check_interval : ℚ)
    (hci : 0 < check_interval) :
    duration ≤ (((⌈duration / check_interval⌉).toNat + 1 : ℕ) : ℚ) * check_interval := by
  rcases le_or_lt duration 0 with hd | hd
  · have : (0:ℚ) < (((⌈duration / check_interval⌉).toNat + 1 : ℕ) : ℚ) * check_interval := by
      apply mul_pos _ hci
      push_cast
      positivity
    linarith
  · have hq : (0:ℚ) < duration / check_interval := div_pos hd hci
    have hceil : (0:ℤ) ≤ ⌈duration / check_interval⌉ := by
      have := Int.ceil_nonneg (le_of_lt hq)
      exact this
    have hcast : (((⌈duration / check_interval⌉).toNat : ℤ) : ℚ)
        = ((⌈duration / check_interval⌉ : ℤ) : ℚ) := by
      exact_mod_cast congrArg Int.cast (Int.toNat_of_nonneg hceil)
    have hle : duration / check_interval ≤ ((⌈duration / check_interval⌉ : ℤ) : ℚ) :=
      Int.le_ceil _
    have : duration / check_interval ≤ (((⌈duration / check_interval⌉).toNat + 1 : ℕ) : ℚ) := by
      push_cast
      push_cast at hcast
      linarith
    calc duration = (duration / check_interval) * check_interval := by
            field_simp
      _ ≤ (((⌈duration / check_interval⌉).toNat + 1 : ℕ) : ℚ) * check_interval := by
            exact mul_le_mul_of_nonneg_right this (le_of_lt hci)

/-- C7: `cancellable_sleep` with the default 0.5-second check interval
sleeps in slices of at most 0.5 s, checking the predicate between slices;
if the predicate never fires it returns `true` having slept the full
duration; if the predicate first fires at the `k0`-th check, reached
strictly before the duration has elapsed, it returns `false` having slept
only `k0 * 0.5 < duration` seconds — the remaining duration is never
slept. -/
theorem claim_C7_cancellable_sleep (duration : ℚ) (cancel : ℕ → Bool) :
    (∀ s ∈ (cancellable_sleep duration (some cancel) (1/2)).2, s ≤ 1/2) ∧
    ((∀ k, cancel k = false) →
      (cancellable_sleep duration (some cancel) (1/2)).1 = true ∧
      (cancellable_sleep duration (some cancel) (1/2)).2.sum = max duration 0) ∧
    (∀ k0 : ℕ, cancel k0 = true → (∀ j, j < k0 → cancel j = false) →
      (k0 : ℚ) * (1/2) < duration →
      (cancellable_sleep duration (some cancel) (1/2)).1 = false ∧
      (cancellable_sleep duration (some cancel) (1/2)).2.sum = (k0 : ℚ) * (1/2) ∧
      (cancellable_sleep duration (some cancel) (1/2)).2.sum < duration) := by
  have hci : (0:ℚ) < 1/2 := by norm_num
  have hfuel := cancellable_sleep_fuel_enough duration (1/2) hci
  have hsome : cancellable_sleep duration (some cancel) (1/2)
      = cancellable_sleep_go duration cancel (1/2)
          ((⌈duration / (1/2)⌉).toNat + 1) 0 0 := rfl
  refine ⟨?_, ?_, ?_⟩
  · intro s hs
    rw [hsome] at hs
    exact cancellable_sleep_go_slices duration cancel (1/2) _ 0 0 s hs
  · intro hnever
    have h := cancellable_sleep_go_no_cancel duration cancel (1/2) hci hnever
      ((⌈duration / (1/2)⌉).toNat + 1) 0 0 (by simpa using hfuel)
    rw [hsome]
    refine ⟨h.1, ?_⟩
    rw [h.2]
    simp
  · intro k0 hfire hbefore hlt
    have h := cancellable_sleep_go_cancelled duration cancel (1/2) hci
      ((⌈duration / (1/2)⌉).toNat + 1) k0 0 0 (by simpa using hfire)
      (fun j hj => by simpa using hbefore j hj)
      (by simpa using hlt) (by simpa using hfuel)
    rw [hsome, h]
    refine ⟨rfl, ?_, ?_⟩
    · simp [List.sum_replicate, nsmul_eq_mul]
    · simp only [List.sum_replicate, nsmul_eq_mul]
      linarith

/-- Closed witness for the cancellable-sleep theorem: duration 1 s with a
predicate that fires at the second check (index 1) gives `false` with a
total slept time of 0.5 s. -/
theorem claim_C7_cancellable_sleep_witness :
    (cancellable_sleep 1 (some (fun k => decide (1 ≤ k))) (1/2)).1 = false ∧
    (cancellable_sleep 1 (some (fun k => decide (1 ≤ k))) (1/2)).2.sum = 1/2 := by
  have h := (claim_C7_cancellable_sleep 1 (fun k => decide (1 ≤ k))).2.2 1
    (by decide)
    (fun j hj => by
      have : j = 0 := by omega
      subst this
      decide)
    (by norm_num)
  exact ⟨h.1, by simpa using h.2.1⟩

/-! ## Provider adapter retry loop (Gemini)

`GeminiProvider.translate` from `src/ai_providers/gemini_provider.py`
(lines 58–103) together with `BaseAIProvider.handle_rate_limit` from
`src/ai_providers/base_provider.py` (lines 138–150).  The remote
`model.generate_content` call is modelled by an oracle giving, per
attempt index, either a response text (`[]` models a falsy response or an
empty `response.text`) or an escaped exception message. -/

/-- Outcome of one `model.generate_content` call. -/
inductive GeminiAttempt where
  | response (text : Chars)
  | exn (msg : Chars)
  deriving Repr, DecidableEq

/-- `BaseAIProvider.create_error_result`. -/
def create_error_result (provider model : Chars) (msg : Chars) : TranslationResult :=
  { text := [], success := false, error := some msg,
    provider := some provider, model := some model }

/-- `BaseAIProvider.handle_rate_limit(retry_count)`: exponential backoff
from `rate_limit_delay`, capped at 60 seconds. -/
def handle_rate_limit (rate_limit_delay : ℚ) (retry_count : ℕ) : ℚ :=
  min (rate_limit_delay * 2 ^ retry_count) 60

/-- Whether a `generate_content` outcome is a failure for the retry loop
(falsy/empty response, or an exception). -/
def geminiAttemptFails : GeminiAttempt → Bool
  | .response t => t.isEmpty
  | .exn _ => true

/-- The error message the retry loop derives from a failing attempt. -/
def geminiAttemptError : GeminiAttempt → Chars
  | .response _ => "Empty response from Gemini".toList
  | .exn m => "Gemini API error: ".toList ++ m

/-- The `for attempt in range(max_retries)` loop of
`GeminiProvider.translate`.  Returns the result, the number of remote
attempts performed (`attempt` index after the final one, i.e. attempts
made so far counting from zero), and the list of rate-limit delays slept
before retries. -/
def geminiTranslateLoop (modelName : Chars) (base : ℚ)
    (attempts : ℕ → GeminiAttempt) (max_retries : ℕ)
    (attempt : ℕ) (delays : List ℚ) : TranslationResult × ℕ × List ℚ :=
  if h : attempt < max_retries then
    let delays' := if 0 < attempt
      then delays ++ [handle_rate_limit base (attempt - 1)] else delays
    match attempts attempt with
    | .response t =>
        if ¬ t.isEmpty then
          ({ text := pyStrip t, success := true,
             provider := some "gemini".toList, model := some modelName },
           attempt + 1, delays')
        else if attempt = max_retries - 1 then
          (create_error_result "gemini".toList modelName
            "Empty response from Gemini".toList, attempt + 1, delays')
        else
          geminiTranslateLoop modelName base attempts max_retries (attempt + 1) delays'
    | .exn m =>
        if attempt = max_retries - 1 then
          (create_error_result "gemini".toList modelName
            ("Gemini API error: ".toList ++ m), attempt + 1, delays')
        else
          geminiTranslateLoop modelName base attempts max_retries (attempt + 1) delays'
  else
    (create_error_result "gemini".toList modelName
      "Max retries exceeded".toList, attempt, delays)
  termination_by max_retries - attempt
  decreasing_by all_goals omega

/-- `GeminiProvider.translate`: the not-initialized guard followed by the
attempt loop started at attempt 0 with no delays slept. -/
def GeminiProvider_translate (is_initialized : Bool) (modelName : Chars)
    (base : ℚ) (attempts : ℕ → GeminiAttempt) (max_retries : ℕ) :
    TranslationResult × ℕ × List ℚ :=
  if is_initialized then
    geminiTranslateLoop modelName base attempts max_retries 0 []
  else
    (create_error_result "gemini".toList modelName
      "Provider not initialized".toList, 0, [])

/-- The delays accumulated by a leaf step of the Gemini loop: the current
attempt's backoff delay is recorded exactly when the attempt index is
positive. -/
theorem geminiDelaysLeaf (base : ℚ) (delays : List ℚ) (attempt : ℕ) :
    (if 0 < attempt then delays ++ [handle_rate_limit base (attempt - 1)] else delays)
      = delays ++ (((List.range' attempt 1).filter (fun k => decide (0 < k))).map
          (fun k => min (base * 2 ^ (k - 1)) 60)) := by
  by_cases h0 : 0 < attempt
  · simp [h0, List.range', handle_rate_limit]
  · have ha0 : attempt = 0 := by omega
    simp [ha0, List.range']

/-- One-step unfolding of the Gemini loop when the current attempt yields
a response. -/
theorem geminiLoop_unfold_response (modelName : Chars) (base : ℚ)
    (attempts : ℕ → GeminiAttempt) (max_retries attempt : ℕ) (delays : List ℚ)
    (t : Chars) (h : attempt < max_retries)
    (hatt : attempts attempt = GeminiAttempt.response t) :
    geminiTranslateLoop modelName base attempts max_retries attempt delays
      = (if ¬ t.isEmpty then
          ({ text := pyStrip t, success := true,
             provider := some "gemini".toList, model := some modelName },
           attempt + 1,
           if 0 < attempt then delays ++ [handle_rate_limit base (attempt - 1)]
           else delays)
        else if attempt = max_retries - 1 then
          (create_error_result "gemini".toList modelName
            "Empty response from Gemini".toList, attempt + 1,
           if 0 < attempt then delays ++ [handle_rate_limit base (attempt - 1)]
           else delays)
        else
          geminiTranslateLoop modelName base attempts max_retries (attempt + 1)
            (if 0 < attempt then delays ++ [handle_rate_limit base (attempt - 1)]
             else delays)) := by
  rw [geminiTranslateLoop, dif_pos h, hatt]

/-- One-step unfolding of the Gemini loop when the current attempt raises
an exception. -/
theorem geminiLoop_unfold_exn (modelName : Chars) (base : ℚ)
    (attempts : ℕ → GeminiAttempt) (max_retries attempt : ℕ) (delays : List ℚ)
    (msg : Chars) (h : attempt < max_retries)
    (hatt : attempts attempt = GeminiAttempt.exn msg) :
    geminiTranslateLoop modelName base attempts max_retries attempt delays
      = (if attempt = max_retries - 1 then
          (create_error_result "gemini".toList modelName
            ("Gemini API error: ".toList ++ msg), attempt + 1,
           if 0 < attempt then delays ++ [handle_rate_limit base (attempt - 1)]
           else delays)
        else
          geminiTranslateLoop modelName base attempts max_retries (attempt + 1)
            (if 0 < attempt then delays ++ [handle_rate_limit base (attempt - 1)]
             else delays)) := by
  rw [geminiTranslateLoop, dif_pos h, hatt]

/-- Invariant of the Gemini attempt loop: the attempt counter stays
within `max_retries`, the slept delays are exactly the capped
exponential-backoff values of the executed retry attempts, and if every
remaining attempt fails, the loop ends in a failed result carrying the
last attempt's error message. -/
theorem geminiTranslateLoop_invariant (modelName : Chars) (base : ℚ)
    (attempts : ℕ → GeminiAttempt) (max_retries : ℕ) :
    ∀ (n attempt : ℕ) (delays : List ℚ), max_retries = attempt + n →
      (attempt ≤ (geminiTranslateLoop modelName base attempts max_retries attempt delays).2.1 ∧
       (geminiTranslateLoop modelName base attempts max_retries attempt delays).2.1
          ≤ max attempt max_retries) ∧
      (geminiTranslateLoop modelName base attempts max_retries attempt delays).2.2
        = delays ++
          (((List.range' attempt
              ((geminiTranslateLoop modelName base attempts max_retries attempt delays).2.1
                - attempt)).filter (fun k => decide (0 < k))).map
            (fun k => min (base * 2 ^ (k - 1)) 60)) ∧
      ((∀ k, attempt ≤ k → k < max_retries → geminiAttemptFails (attempts k) = true) →
        (geminiTranslateLoop modelName base attempts max_retries attempt delays).1.success
            = false ∧
        (attempt < max_retries →
          (geminiTranslateLoop modelName base attempts max_retries attempt delays).1.error
            = some (geminiAttemptError (attempts (max_retries - 1))) ∧
          (geminiTranslateLoop modelName base attempts max_retries attempt delays).2.1
            = max_retries)) := by
  intro n
  induction n with
  | zero =>
      intro attempt delays hmax
      have hnot : ¬ attempt < max_retries := by omega
      rw [geminiTranslateLoop]
      rw [dif_neg hnot]
      refine ⟨⟨le_refl _, le_max_left _ _⟩, by simp, ?_⟩
      intro _
      exact ⟨rfl, fun h => absurd h hnot⟩
  | succ m ih =>
      intro attempt delays hmax
      have hlt : attempt < max_retries := by omega
      cases hatt : attempts attempt with
      | response t =>
          rw [geminiLoop_unfold_response modelName base attempts max_retries attempt
            delays t hlt hatt]
          by_cases hte : t.isEmpty
          · have hcond : ¬ (¬ t.isEmpty = true) := by simp [hte]
            by_cases hlast : attempt = max_retries - 1
            · rw [if_neg hcond, if_pos hlast]
              refine ⟨⟨Nat.le_succ _, by show attempt + 1 ≤ max attempt max_retries; omega⟩, ?_, ?_⟩
              · have h1 : attempt + 1 - attempt = 1 := by omega
                show (if 0 < attempt
                  then delays ++ [handle_rate_limit base (attempt - 1)] else delays) = _
                rw [h1]
                exact geminiDelaysLeaf base delays attempt
              · intro _
                refine ⟨rfl, fun _ => ⟨?_, by show attempt + 1 = max_retries; omega⟩⟩
                show some _ = some (geminiAttemptError (attempts (max_retries - 1)))
                rw [← hlast, hatt]
                rfl
            · rw [if_neg hcond, if_neg hlast]
              have hm : max_retries = (attempt + 1) + m := by omega
              have hrec := ih (attempt + 1)
                (if 0 < attempt then delays ++ [handle_rate_limit base (attempt - 1)]
                 else delays) hm
              set r := geminiTranslateLoop modelName base attempts max_retries (attempt + 1)
                (if 0 < attempt then delays ++ [handle_rate_limit base (attempt - 1)]
                 else delays) with hr
              refine ⟨⟨le_trans (Nat.le_succ attempt) hrec.1.1, ?_⟩, ?_, ?_⟩
              · have := hrec.1.2
                omega
              · have hcount : attempt + 1 ≤ r.2.1 := hrec.1.1
                have hsplit : List.range' attempt (r.2.1 - attempt)
                    = attempt :: List.range' (attempt + 1) (r.2.1 - (attempt + 1)) := by
                  have h1 : r.2.1 - attempt = (r.2.1 - (attempt + 1)) + 1 := by omega
                  rw [h1, List.range'_succ]
                rw [hrec.2.1, hsplit]
                by_cases h0 : 0 < attempt
                · simp [h0, handle_rate_limit, List.append_assoc]
                · have ha0 : attempt = 0 := by omega
                  simp [ha0]
              · intro hfails
                have hresc := hrec.2.2 (fun k hk1 hk2 => hfails k (by omega) hk2)
                exact ⟨hresc.1, fun _ => hresc.2 (by omega)⟩
          · rw [if_pos hte]
            refine ⟨⟨Nat.le_succ _, by show attempt + 1 ≤ max attempt max_retries; omega⟩, ?_, ?_⟩
            · have h1 : attempt + 1 - attempt = 1 := by omega
              show (if 0 < attempt
                then delays ++ [handle_rate_limit base (attempt - 1)] else delays) = _
              rw [h1]
              exact geminiDelaysLeaf base delays attempt
            · intro hfails
              exfalso
              have hthis := hfails attempt (le_refl _) hlt
              rw [hatt] at hthis
              simp [geminiAttemptFails, hte] at hthis
      | exn msg =>
          rw [geminiLoop_unfold_exn modelName base attempts max_retries attempt
            delays msg hlt hatt]
          by_cases hlast : attempt = max_retries - 1
          · rw [if_pos hlast]
            refine ⟨⟨Nat.le_succ _, by show attempt + 1 ≤ max attempt max_retries; omega⟩, ?_, ?_⟩
            · have h1 : attempt + 1 - attempt = 1 := by omega
              show (if 0 < attempt
                then delays ++ [handle_rate_limit base (attempt - 1)] else delays) = _
              rw [h1]
              exact geminiDelaysLeaf base delays attempt
            · intro _
              refine ⟨rfl, fun _ => ⟨?_, by show attempt + 1 = max_retries; omega⟩⟩
              show some _ = some (geminiAttemptError (attempts (max_retries - 1)))
              rw [← hlast, hatt]
              rfl
          · rw [if_neg hlast]
            have hm : max_retries = (attempt + 1) + m := by omega
            have hrec := ih (attempt + 1)
              (if 0 < attempt then delays ++ [handle_rate_limit base (attempt - 1)]
               else delays) hm
            set r := geminiTranslateLoop modelName base attempts max_retries (attempt + 1)
              (if 0 < attempt then delays ++ [handle_rate_limit base (attempt - 1)]
               else delays) with hr
            refine ⟨⟨le_trans (Nat.le_succ attempt) hrec.1.1, ?_⟩, ?_, ?_⟩
            · have := hrec.1.2
              omega
            · have hcount : attempt + 1 ≤ r.2.1 := hrec.1.1
              have hsplit : List.range' attempt (r.2.1 - attempt)
                  = attempt :: List.range' (attempt + 1) (r.2.1 - (attempt + 1)) := by
                have h1 : r.2.1 - attempt = (r.2.1 - (attempt + 1)) + 1 := by omega
                rw [h1, List.range'_succ]
              rw [hrec.2.1, hsplit]
              by_cases h0 : 0 < attempt
              · simp [h0, handle_rate_limit, List.append_assoc]
              · have ha0 : attempt = 0 := by omega
                simp [ha0]
            · intro hfails
              have hresc := hrec.2.2 (fun k hk1 hk2 => hfails k (by omega) hk2)
              exact ⟨hresc.1, fun _ => hresc.2 (by omega)⟩

/-- Normalization of the delay list of a loop started at attempt 0: the
recorded delays are the capped exponential backoff values
`min (base * 2^k) 60` for `k = 0, …, attemptsMade - 2`. -/
theorem geminiDelaysFromZero (base : ℚ) (n : ℕ) :
    ((List.range' 0 n).filter (fun k => decide (0 < k))).map
        (fun k => min (base * 2 ^ (k - 1)) 60)
      = (List.range (n - 1)).map (fun k => min (base * 2 ^ k) 60) := by
  cases n with
  | zero => rfl
  | succ m =>
      have hstep : (List.range' 0 (m + 1)).filter (fun k => decide (0 < k))
          = List.range' 1 m := by
        rw [List.range'_succ, List.filter_cons]
        simp only [decide_eq_true_eq]
        rw [if_neg (by omega)]
        apply List.filter_eq_self.mpr
        intro a ha
        simp only [decide_eq_true_eq]
        have := List.mem_range'_1.mp ha
        omega
      rw [hstep]
      have hmap : List.range' 1 m = (List.range m).map (fun j => 1 + j) := by
        calc List.range' 1 m = List.map (1 + ·) (List.range' 0 m) :=
              (List.map_add_range' 1 0 m 1).symm
          _ = (List.range m).map (fun j => 1 + j) := by rw [← List.range_eq_range']
      rw [hmap, List.map_map]
      have hsm : m + 1 - 1 = m := by omega
      rw [hsm]
      apply List.map_congr_left
      intro a _
      simp only [Function.comp_apply]
      have : 1 + a - 1 = a := by omega
      rw [this]

/-- C8: the Gemini adapter's `translate` performs at most `max_retries`
remote attempts; the delay slept before each retry is the exponential
backoff `min (base * 2^k) 60` seeded from the configurable
`rate_limit_delay`; and when every attempt fails it returns a failed
`TranslationResult` carrying the last attempt's error message instead of
raising. -/
theorem claim_C8_provider_adapter_retry (modelName : Chars) (base : ℚ)
    (attempts : ℕ → GeminiAttempt) (max_retries : ℕ) :
    (GeminiProvider_translate true modelName base attempts max_retries).2.1
        ≤ max_retries ∧
    (GeminiProvider_translate true modelName base attempts max_retries).2.2
      = (List.range
          ((GeminiProvider_translate true modelName base attempts max_retries).2.1 - 1)).map
          (fun k => min (base * 2 ^ k) 60) ∧
    (0 < max_retries →
      (∀ k, k < max_retries → geminiAttemptFails (attempts k) = true) →
      (GeminiProvider_translate true modelName base attempts max_retries).1.success
          = false ∧
      (GeminiProvider_translate true modelName base attempts max_retries).1.error
        = some (geminiAttemptError (attempts (max_retries - 1)))) := by
  have hinv := geminiTranslateLoop_invariant modelName base attempts max_retries
    max_retries 0 [] (by omega)
  have hG : GeminiProvider_translate true modelName base attempts max_retries
      = geminiTranslateLoop modelName base attempts max_retries 0 [] := rfl
  rw [hG]
  obtain ⟨⟨_, hle⟩, hdel, hfl⟩ := hinv
  refine ⟨by simpa using hle, ?_, ?_⟩
  · rw [hdel]
    have := geminiDelaysFromZero base
      ((geminiTranslateLoop modelName base attempts max_retries 0 []).2.1)
    simpa using this
  · intro hpos hfails
    have hrun := hfl (fun k _ hk2 => hfails k hk2)
    exact ⟨hrun.1, (hrun.2 (by omega)).1⟩

/-- Closed witness for the adapter-retry theorem: two attempts that both
raise give a failed result carrying the second exception's message, with
at most two attempts made. -/
theorem claim_C8_provider_adapter_retry_witness :
    (GeminiProvider_translate true "m".toList 1
        (fun _ => GeminiAttempt.exn "boom".toList) 2).1.success = false ∧
    (GeminiProvider_translate true "m".toList 1
        (fun _ => GeminiAttempt.exn "boom".toList) 2).1.error
      = some "Gemini API error: boom".toList ∧
    (GeminiProvider_translate true "m".toList 1
        (fun _ => GeminiAttempt.exn "boom".toList) 2).2.1 ≤ 2 := by
  have h := claim_C8_provider_adapter_retry "m".toList 1
    (fun _ => GeminiAttempt.exn "boom".toList) 2
  have hrun := h.2.2 (by norm_num) (fun k _ => rfl)
  refine ⟨hrun.1, ?_, h.1⟩
  rw [hrun.2]
  rfl

/-! ## Per-file size-deviation retry policy

The retry loop of `run_translation_phase` in
`src/translation/translationManager.py` (lines 191–233).  The translator
is modelled by an oracle `retry` giving the result of the `k`-th retry
call of `translator.translate` (`none` models a `None` return);
cancellation of the backoff sleep is modelled by `sleepCompleted k`, the
return value of `cancellable_sleep` before the `k`-th retry.  Python's
float arithmetic on the two deviation measures is modelled with exact
rationals. -/

/-- The loop guard and post-loop check of the size-deviation policy:
`abs(percent_diff) > 115.0 or diff_kb > 7.0`, with
`percent_diff = (translated - original)/original * 100` (0 when the
original is empty) and `diff_kb = |translated - original| / 1024`. -/
def sizeDeviationExceeds (originalSize translatedSize : ℕ) : Bool :=
  let percent_diff : ℚ := if originalSize = 0 then 0
    else ((translatedSize : ℚ) - (originalSize : ℚ)) / (originalSize : ℚ) * 100
  let diff_kb : ℚ := |(translatedSize : ℚ) - (originalSize : ℚ)| / 1024
  decide (|percent_diff| > 115) || decide (diff_kb > 7)

/-- Outcome of the per-file size-deviation retry loop: the translation
finally written (`final_translation`), the number of retries performed
(`retry_count`), the scheduled backoff delays in seconds, and whether the
post-loop `[NOTICE]` line is logged. -/
structure SizeRetryOutcome where
  finalTranslation : Chars
  retryCount : ℕ
  delays : List ℕ
  notice : Bool
  deriving Repr, DecidableEq

/-- The `while (abs(percent_diff) > threshold or diff_kb > threshold) and
retry_count < max_retries` loop (fuel counts the remaining allowed
retries; the top-level call passes `max_retries = 4`).  `lastSize` tracks
the translated size from which the current `percent_diff`/`diff_kb` were
computed; on an accepted retry the loop breaks *without* updating them,
so the post-loop notice check still sees the stale values, exactly as in
the source.  Line 214's `if translated_retry:` is Python truthiness: a
`None` return (`retry _ = none`) and an empty-string return
(`some []`) both take the `[ERROR] Retry translation failed.` branch
and break, keeping the current `final_translation`.  The delay before
retry `rc+1` is `30 * 2^rc` seconds (`30 * 2 ** (retry_count - 1)`
after the increment). -/
def sizeRetryGo (originalSize : ℕ) (retry : ℕ → Option Chars)
    (sleepCompleted : ℕ → Bool) :
    ℕ → ℕ → Chars → ℕ → List ℕ → SizeRetryOutcome
  | 0, retryCount, finalT, lastSize, delays =>
      ⟨finalT, retryCount, delays, sizeDeviationExceeds originalSize lastSize⟩
  | fuel + 1, retryCount, finalT, lastSize, delays =>
      if sizeDeviationExceeds originalSize lastSize then
        if ¬ sleepCompleted (retryCount + 1) then
          ⟨finalT, retryCount + 1, delays ++ [30 * 2 ^ retryCount],
            sizeDeviationExceeds originalSize lastSize⟩
        else
          match retry (retryCount + 1) with
          | none => ⟨finalT, retryCount + 1, delays ++ [30 * 2 ^ retryCount],
              sizeDeviationExceeds originalSize lastSize⟩
          | some tr =>
              if tr.isEmpty then
                ⟨finalT, retryCount + 1, delays ++ [30 * 2 ^ retryCount],
                  sizeDeviationExceeds originalSize lastSize⟩
              else if sizeDeviationExceeds originalSize (utf8Len tr) then
                sizeRetryGo originalSize retry sleepCompleted fuel (retryCount + 1)
                  finalT (utf8Len tr) (delays ++ [30 * 2 ^ retryCount])
              else
                ⟨tr, retryCount + 1, delays ++ [30 * 2 ^ retryCount],
                  sizeDeviationExceeds originalSize lastSize⟩
      else
        ⟨finalT, retryCount, delays, sizeDeviationExceeds originalSize lastSize⟩

/-- The size-deviation retry policy as applied to one file: original size
from the (post-OCR) source content, initial sizes from the first
translation, `max_retries = 4`, starting with no retries performed. -/
def runSizeRetryPolicy (content translated : Chars) (retry : ℕ → Option Chars)
    (sleepCompleted : ℕ → Bool) : SizeRetryOutcome :=
  sizeRetryGo (utf8Len content) retry sleepCompleted 4 0 translated
    (utf8Len translated) []

/-- A list whose `isEmpty` test is `false` is not `[]`. -/
theorem ne_nil_of_isEmpty_false (l : Chars) (h : l.isEmpty = false) : l ≠ [] := by
  intro hnil
  rw [hnil] at h
  simp at h

/-- C1 (amended): when the first translation's deviation exceeds the
thresholds and sleeps are not cancelled, the policy retries at most 4
additional times with backoff delays `30 * 2^k` (30 s, 60 s, 120 s,
240 s); the first truthy (non-empty) retry within both thresholds is
accepted and written; if every retry is non-empty and out of threshold,
the *first* produced translation (the original pre-retry result) is
written anyway, with the `[NOTICE]` line logged; and a falsy retry — an
empty string, like a `None` — aborts the loop (`[ERROR] Retry
translation failed.`) and the first translation is written.  The
operation completes without raising. -/
theorem claim_C1_size_retry_amended (content translated : Chars) (t : ℕ → Chars)
    (sleepOk : ℕ → Bool) (hsleep : ∀ k, sleepOk k = true)
    (hexceed : sizeDeviationExceeds (utf8Len content) (utf8Len translated) = true) :
    (runSizeRetryPolicy content translated (fun k => some (t k)) sleepOk).retryCount
        ≤ 4 ∧
    (runSizeRetryPolicy content translated (fun k => some (t k)) sleepOk).delays
      = (List.range
          (runSizeRetryPolicy content translated (fun k => some (t k)) sleepOk).retryCount).map
          (fun k => 30 * 2 ^ k) ∧
    ((∀ k, 1 ≤ k → k ≤ 4 → t k ≠ [] ∧
        sizeDeviationExceeds (utf8Len content) (utf8Len (t k)) = true) →
      (runSizeRetryPolicy content translated (fun k => some (t k)) sleepOk).finalTranslation
          = translated ∧
      (runSizeRetryPolicy content translated (fun k => some (t k)) sleepOk).notice = true ∧
      (runSizeRetryPolicy content translated (fun k => some (t k)) sleepOk).retryCount = 4) ∧
    (∀ j, 1 ≤ j → j ≤ 4 →
      (∀ k, 1 ≤ k → k < j → t k ≠ [] ∧
        sizeDeviationExceeds (utf8Len content) (utf8Len (t k)) = true) →
      t j ≠ [] →
      sizeDeviationExceeds (utf8Len content) (utf8Len (t j)) = false →
      (runSizeRetryPolicy content translated (fun k => some (t k)) sleepOk).finalTranslation
          = t j ∧
      (runSizeRetryPolicy content translated (fun k => some (t k)) sleepOk).retryCount
          = j) ∧
    (∀ j, 1 ≤ j → j ≤ 4 →
      (∀ k, 1 ≤ k → k < j → t k ≠ [] ∧
        sizeDeviationExceeds (utf8Len content) (utf8Len (t k)) = true) →
      t j = [] →
      (runSizeRetryPolicy content translated (fun k => some (t k)) sleepOk).finalTranslation
          = translated ∧
      (runSizeRetryPolicy content translated (fun k => some (t k)) sleepOk).notice = true ∧
      (runSizeRetryPolicy content translated (fun k => some (t k)) sleepOk).retryCount
          = j) := by
  cases he1 : (t 1).isEmpty with
  | true =>
      have hn1 : t 1 = [] := List.isEmpty_iff.mp he1
      have hr : runSizeRetryPolicy content translated (fun k => some (t k)) sleepOk
          = ⟨translated, 1, [30], true⟩ := by
        simp [runSizeRetryPolicy, sizeRetryGo, hexceed, hsleep, he1]
      rw [hr]
      refine ⟨by norm_num, by simp [List.range_succ], ?_, ?_, ?_⟩
      · intro h
        exact absurd hn1 (h 1 (by norm_num) (by norm_num)).1
      · intro j hj1 hj4 hprev hjne hj
        interval_cases j
        · exact absurd hn1 hjne
        · exact absurd hn1 (hprev 1 (by norm_num) (by norm_num)).1
        · exact absurd hn1 (hprev 1 (by norm_num) (by norm_num)).1
        · exact absurd hn1 (hprev 1 (by norm_num) (by norm_num)).1
      · intro j hj1 hj4 hprev hjemp
        interval_cases j
        · exact ⟨rfl, rfl, rfl⟩
        · exact absurd hn1 (hprev 1 (by norm_num) (by norm_num)).1
        · exact absurd hn1 (hprev 1 (by norm_num) (by norm_num)).1
        · exact absurd hn1 (hprev 1 (by norm_num) (by norm_num)).1
  | false =>
  cases hb1 : sizeDeviationExceeds (utf8Len content) (utf8Len (t 1)) with
  | false =>
      have hr : runSizeRetryPolicy content translated (fun k => some (t k)) sleepOk
          = ⟨t 1, 1, [30], true⟩ := by
        simp [runSizeRetryPolicy, sizeRetryGo, hexceed, hsleep, he1, hb1]
      rw [hr]
      refine ⟨by norm_num, by simp [List.range_succ], ?_, ?_, ?_⟩
      · intro h
        exact absurd (h 1 (by norm_num) (by norm_num)).2 (by simp [hb1])
      · intro j hj1 hj4 hprev hjne hj
        interval_cases j
        · exact ⟨rfl, rfl⟩
        · exact absurd (hprev 1 (by norm_num) (by norm_num)).2 (by simp [hb1])
        · exact absurd (hprev 1 (by norm_num) (by norm_num)).2 (by simp [hb1])
        · exact absurd (hprev 1 (by norm_num) (by norm_num)).2 (by simp [hb1])
      · intro j hj1 hj4 hprev hjemp
        interval_cases j
        · exact absurd hjemp (ne_nil_of_isEmpty_false (t 1) he1)
        · exact absurd (hprev 1 (by norm_num) (by norm_num)).2 (by simp [hb1])
        · exact absurd (hprev 1 (by norm_num) (by norm_num)).2 (by simp [hb1])
        · exact absurd (hprev 1 (by norm_num) (by norm_num)).2 (by simp [hb1])
  | true =>
  cases he2 : (t 2).isEmpty with
  | true =>
      have hn2 : t 2 = [] := List.isEmpty_iff.mp he2
      have hr : runSizeRetryPolicy content translated (fun k => some (t k)) sleepOk
          = ⟨translated, 2, [30, 60], true⟩ := by
        simp [runSizeRetryPolicy, sizeRetryGo, hexceed, hsleep, he1, hb1, he2]
      rw [hr]
      refine ⟨by norm_num, by simp [List.range_succ], ?_, ?_, ?_⟩
      · intro h
        exact absurd hn2 (h 2 (by norm_num) (by norm_num)).1
      · intro j hj1 hj4 hprev hjne hj
        interval_cases j
        · exact absurd hb1 (by simp [hj])
        · exact absurd hn2 hjne
        · exact absurd hn2 (hprev 2 (by norm_num) (by norm_num)).1
        · exact absurd hn2 (hprev 2 (by norm_num) (by norm_num)).1
      · intro j hj1 hj4 hprev hjemp
        interval_cases j
        · exact absurd hjemp (ne_nil_of_isEmpty_false (t 1) he1)
        · exact ⟨rfl, rfl, rfl⟩
        · exact absurd hn2 (hprev 2 (by norm_num) (by norm_num)).1
        · exact absurd hn2 (hprev 2 (by norm_num) (by norm_num)).1
  | false =>
  cases hb2 : sizeDeviationExceeds (utf8Len content) (utf8Len (t 2)) with
  | false =>
      have hr : runSizeRetryPolicy content translated (fun k => some (t k)) sleepOk
          = ⟨t 2, 2, [30, 60], true⟩ := by
        simp [runSizeRetryPolicy, sizeRetryGo, hexceed, hsleep, he1, hb1, he2, hb2]
      rw [hr]
      refine ⟨by norm_num, by simp [List.range_succ], ?_, ?_, ?_⟩
      · intro h
        exact absurd (h 2 (by norm_num) (by norm_num)).2 (by simp [hb2])
      · intro j hj1 hj4 hprev hjne hj
        interval_cases j
        · exact absurd hb1 (by simp [hj])
        · exact ⟨rfl, rfl⟩
        · exact absurd (hprev 2 (by norm_num) (by norm_num)).2 (by simp [hb2])
        · exact absurd (hprev 2 (by norm_num) (by norm_num)).2 (by simp [hb2])
      · intro j hj1 hj4 hprev hjemp
        interval_cases j
        · exact absurd hjemp (ne_nil_of_isEmpty_false (t 1) he1)
        · exact absurd hjemp (ne_nil_of_isEmpty_false (t 2) he2)
        · exact absurd (hprev 2 (by norm_num) (by norm_num)).2 (by simp [hb2])
        · exact absurd (hprev 2 (by norm_num) (by norm_num)).2 (by simp [hb2])
  | true =>
  cases he3 : (t 3).isEmpty with
  | true =>
      have hn3 : t 3 = [] := List.isEmpty_iff.mp he3
      have hr : runSizeRetryPolicy content translated (fun k => some (t k)) sleepOk
          = ⟨translated, 3, [30, 60, 120], true⟩ := by
        simp [runSizeRetryPolicy, sizeRetryGo, hexceed, hsleep, he1, hb1, he2, hb2, he3]
      rw [hr]
      refine ⟨by norm_num, by simp [List.range_succ], ?_, ?_, ?_⟩
      · intro h
        exact absurd hn3 (h 3 (by norm_num) (by norm_num)).1
      · intro j hj1 hj4 hprev hjne hj
        interval_cases j
        · exact absurd hb1 (by simp [hj])
        · exact absurd hb2 (by simp [hj])
        · exact absurd hn3 hjne
        · exact absurd hn3 (hprev 3 (by norm_num) (by norm_num)).1
      · intro j hj1 hj4 hprev hjemp
        interval_cases j
        · exact absurd hjemp (ne_nil_of_isEmpty_false (t 1) he1)
        · exact absurd hjemp (ne_nil_of_isEmpty_false (t 2) he2)
        · exact ⟨rfl, rfl, rfl⟩
        · exact absurd hn3 (hprev 3 (by norm_num) (by norm_num)).1
  | false =>
  cases hb3 : sizeDeviationExceeds (utf8Len content) (utf8Len (t 3)) with
  | false =>
      have hr : runSizeRetryPolicy content translated (fun k => some (t k)) sleepOk
          = ⟨t 3, 3, [30, 60, 120], true⟩ := by
        simp [runSizeRetryPolicy, sizeRetryGo, hexceed, hsleep, he1, hb1, he2, hb2,
          he3, hb3]
      rw [hr]
      refine ⟨by norm_num, by simp [List.range_succ], ?_, ?_, ?_⟩
      · intro h
        exact absurd (h 3 (by norm_num) (by norm_num)).2 (by simp [hb3])
      · intro j hj1 hj4 hprev hjne hj
        interval_cases j
        · exact absurd hb1 (by simp [hj])
        · exact absurd hb2 (by simp [hj])
        · exact ⟨rfl, rfl⟩
        · exact absurd (hprev 3 (by norm_num) (by norm_num)).2 (by simp [hb3])
      · intro j hj1 hj4 hprev hjemp
        interval_cases j
        · exact absurd hjemp (ne_nil_of_isEmpty_false (t 1) he1)
        · exact absurd hjemp (ne_nil_of_isEmpty_false (t 2) he2)
        · exact absurd hjemp (ne_nil_of_isEmpty_false (t 3) he3)
        · exact absurd (hprev 3 (by norm_num) (by norm_num)).2 (by simp [hb3])
  | true =>
  cases he4 : (t 4).isEmpty with
  | true =>
      have hn4 : t 4 = [] := List.isEmpty_iff.mp he4
      have hr : runSizeRetryPolicy content translated (fun k => some (t k)) sleepOk
          = ⟨translated, 4, [30, 60, 120, 240], true⟩ := by
        simp [runSizeRetryPolicy, sizeRetryGo, hexceed, hsleep, he1, hb1, he2, hb2,
          he3, hb3, he4]
      rw [hr]
      refine ⟨by norm_num, by simp [List.range_succ], ?_, ?_, ?_⟩
      · intro h
        exact absurd hn4 (h 4 (by norm_num) (by norm_num)).1
      · intro j hj1 hj4 hprev hjne hj
        interval_cases j
        · exact absurd hb1 (by simp [hj])
        · exact absurd hb2 (by simp [hj])
        · exact absurd hb3 (by simp [hj])
        · exact absurd hn4 hjne
      · intro j hj1 hj4 hprev hjemp
        interval_cases j
        · exact absurd hjemp (ne_nil_of_isEmpty_false (t 1) he1)
        · exact absurd hjemp (ne_nil_of_isEmpty_false (t 2) he2)
        · exact absurd hjemp (ne_nil_of_isEmpty_false (t 3) he3)
        · exact ⟨rfl, rfl, rfl⟩
  | false =>
  cases hb4 : sizeDeviationExceeds (utf8Len content) (utf8Len (t 4)) with
  | false =>
      have hr : runSizeRetryPolicy content translated (fun k => some (t k)) sleepOk
          = ⟨t 4, 4, [30, 60, 120, 240], true⟩ := by
        simp [runSizeRetryPolicy, sizeRetryGo, hexceed, hsleep, he1, hb1, he2, hb2,
          he3, hb3, he4, hb4]
      rw [hr]
      refine ⟨by norm_num, by simp [List.range_succ], ?_, ?_, ?_⟩
      · intro h
        exact absurd (h 4 (by norm_num) (by norm_num)).2 (by simp [hb4])
      · intro j hj1 hj4 hprev hjne hj
        interval_cases j
        · exact absurd hb1 (by simp [hj])
        · exact absurd hb2 (by simp [hj])
        · exact absurd hb3 (by simp [hj])
        · exact ⟨rfl, rfl⟩
      · intro j hj1 hj4 hprev hjemp
        interval_cases j
        · exact absurd hjemp (ne_nil_of_isEmpty_false (t 1) he1)
        · exact absurd hjemp (ne_nil_of_isEmpty_false (t 2) he2)
        · exact absurd hjemp (ne_nil_of_isEmpty_false (t 3) he3)
        · exact absurd hjemp (ne_nil_of_isEmpty_false (t 4) he4)
  | true =>
      have hr : runSizeRetryPolicy content translated (fun k => some (t k)) sleepOk
          = ⟨translated, 4, [30, 60, 120, 240], true⟩ := by
        simp [runSizeRetryPolicy, sizeRetryGo, hexceed, hsleep, he1, hb1, he2, hb2,
          he3, hb3, he4, hb4]
      rw [hr]
      refine ⟨by norm_num, by simp [List.range_succ], fun _ => ⟨rfl, rfl, rfl⟩, ?_, ?_⟩
      · intro j hj1 hj4 hprev hjne hj
        interval_cases j
        · exact absurd hb1 (by simp [hj])
        · exact absurd hb2 (by simp [hj])
        · exact absurd hb3 (by simp [hj])
        · exact absurd hb4 (by simp [hj])
      · intro j hj1 hj4 hprev hjemp
        interval_cases j
        · exact absurd hjemp (ne_nil_of_isEmpty_false (t 1) he1)
        · exact absurd hjemp (ne_nil_of_isEmpty_false (t 2) he2)
        · exact absurd hjemp (ne_nil_of_isEmpty_false (t 3) he3)
        · exact absurd hjemp (ne_nil_of_isEmpty_false (t 4) he4)

/-- Retry translations for the C1 concrete runs: four 6-byte texts, all
different from the 6-byte first translation. -/
def cexRetryTexts : ℕ → Chars := fun k =>
  ["dddddd".toList, "eeeeee".toList, "ffffff".toList, "gggggg".toList].getD (k - 1) []

/-- Counterexample to C1 as stated: with a 2-byte original, the 6-byte
first translation and four 6-byte retries all exceed the thresholds; the
code performs all 4 retries and then writes the *first* translation, not
the last produced one (`"gggggg"`), contradicting the claim's "the last
produced translation is written anyway". -/
theorem claim_C1_counterexample :
    (runSizeRetryPolicy "ab".toList "cccccc".toList
        (fun k => some (cexRetryTexts k)) (fun _ => true)).retryCount = 4 ∧
    (runSizeRetryPolicy "ab".toList "cccccc".toList
        (fun k => some (cexRetryTexts k)) (fun _ => true)).finalTranslation
      = "cccccc".toList ∧
    cexRetryTexts 4 = "gggggg".toList ∧
    (runSizeRetryPolicy "ab".toList "cccccc".toList
        (fun k => some (cexRetryTexts k)) (fun _ => true)).finalTranslation
      ≠ cexRetryTexts 4 := by
  have hab : utf8Len ['a', 'b'] = 2 := by decide
  have hcc : utf8Len ['c', 'c', 'c', 'c', 'c', 'c'] = 6 := by decide
  have h1 : utf8Len (cexRetryTexts 1) = 6 := by decide
  have h2 : utf8Len (cexRetryTexts 2) = 6 := by decide
  have h3 : utf8Len (cexRetryTexts 3) = 6 := by decide
  have h4 : utf8Len (cexRetryTexts 4) = 6 := by decide
  have hne1 : (cexRetryTexts 1).isEmpty = false := by decide
  have hne2 : (cexRetryTexts 2).isEmpty = false := by decide
  have hne3 : (cexRetryTexts 3).isEmpty = false := by decide
  have hne4 : (cexRetryTexts 4).isEmpty = false := by decide
  have he : sizeDeviationExceeds 2 6 = true := by
    simp only [sizeDeviationExceeds]
    norm_num
  have hr : runSizeRetryPolicy "ab".toList "cccccc".toList
      (fun k => some (cexRetryTexts k)) (fun _ => true)
      = ⟨"cccccc".toList, 4, [30, 60, 120, 240], true⟩ := by
    simp [runSizeRetryPolicy, sizeRetryGo, hab, hcc, h1, h2, h3, h4,
      hne1, hne2, hne3, hne4, he]
  refine ⟨by rw [hr], by rw [hr], by decide, by rw [hr]; decide⟩

/-- Closed witness for the amended size-retry theorem, at the concrete
all-retries-exceed input. -/
theorem claim_C1_size_retry_amended_witness :
    (runSizeRetryPolicy "ab".toList "cccccc".toList
        (fun k => some (cexRetryTexts k)) (fun _ => true)).retryCount ≤ 4 ∧
    (runSizeRetryPolicy "ab".toList "cccccc".toList
        (fun k => some (cexRetryTexts k)) (fun _ => true)).delays
      = (List.range
          (runSizeRetryPolicy "ab".toList "cccccc".toList
            (fun k => some (cexRetryTexts k)) (fun _ => true)).retryCount).map
          (fun k => 30 * 2 ^ k) := by
  have h := claim_C1_size_retry_amended "ab".toList "cccccc".toList cexRetryTexts
    (fun _ => true) (fun _ => rfl)
    (by
      have hab : utf8Len "ab".toList = 2 := by decide
      have hcc : utf8Len "cccccc".toList = 6 := by decide
      rw [hab, hcc]
      simp only [sizeDeviationExceeds]
      norm_num)
  exact ⟨h.1, h.2.1⟩

/-! ## Chapter classification and copy-through dispatch

`is_image_only_chapter` from `src/proofing/utils.py` (lines 212–234) and
the skip checks at the head of the per-file translation loop of
`run_translation_phase` in `src/translation/translationManager.py`
(lines 163–184).  The three `re.sub`/`re.findall` patterns involved are
transcribed as explicit scanners with the same leftmost,
non-overlapping-match semantics (greedy/lazy extents noted per
pattern). -/

/-- First occurrence of `pat` in `s`, returned as the split
`(pre, post)` with `s = pre ++ pat ++ post`. -/
def splitAtSeq (pat : Chars) : Chars → Option (Chars × Chars)
  | [] => if pat.isEmpty then some ([], []) else none
  | c :: cs =>
      if startsWithCh pat (c :: cs) then some ([], (c :: cs).drop pat.length)
      else
        match splitAtSeq pat cs with
        | some (pre, post) => some (c :: pre, post)
        | none => none

/-- `re.sub(r'<<<IMAGE_START>>>.*?<<<IMAGE_END>>>', '', s, flags=re.DOTALL)`:
each leftmost start marker with an end marker after it is removed together
with the (lazily shortest) span up to the first following end marker;
scanning continues after the removed span. -/
def stripImageBlocksGo : ℕ → Chars → Chars
  | 0, cs => cs
  | fuel + 1, cs =>
      match splitAtSeq "<<<IMAGE_START>>>".toList cs with
      | none => cs
      | some (pre, afterStart) =>
          match splitAtSeq "<<<IMAGE_END>>>".toList afterStart with
          | none => cs
          | some (_, afterEnd) => pre ++ stripImageBlocksGo fuel afterEnd

/-- The two quote characters of the image-tag pattern. -/
def quoteChar (c : Char) : Bool := c = '"' || c = '\''

/-- Attempt the continuation `src\s*=\s*["\'][^"\']+["\'][^>]*\/?>` of the
image-tag pattern with the `[^>]*` before `src` ending at offset `q` of
`after` (so `src` must start there, case-insensitively).  Greedy
quantifier extents: `[^"\']+` runs to the first quote character, `[^>]*`
to the first `>`. -/
def tryImageSrcAt (after : Chars) (q : ℕ) : Option Chars :=
  if startsWithCh "src".toList (pyLower (after.drop q)) then
    let tail0 := after.drop (q + 3)
    let tail1 := tail0.dropWhile Char.isWhitespace
    match tail1 with
    | '=' :: tail1' =>
        let tail2 := tail1'.dropWhile Char.isWhitespace
        match tail2 with
        | c1 :: tail3 =>
            if quoteChar c1 then
              let qrun := tail3.takeWhile (fun c => ¬ quoteChar c)
              if qrun.isEmpty then none
              else
                match tail3.drop qrun.length with
                | c2 :: tail5 =>
                    if quoteChar c2 then
                      let grun := tail5.takeWhile (fun c => c ≠ '>')
                      match tail5.drop grun.length with
                      | '>' :: tail6 => some tail6
                      | _ => none
                    else none
                | [] => none
            else none
        | [] => none
    | _ => none
  else none

/-- Backtracking over the greedy `[^>]*` before `src`: candidate offsets
are tried from the longest prefix (rightmost `src` start) downwards, as
the regex engine does. -/
def findSrcCandidate (after : Chars) : ℕ → Option Chars
  | 0 => tryImageSrcAt after 0
  | q + 1 =>
      match tryImageSrcAt after (q + 1) with
      | some r => some r
      | none => findSrcCandidate after q

/-- Match of `<image\s+[^>]*src\s*=\s*["\'][^"\']+["\'][^>]*\/?>`
(case-insensitive) at the head of `cs`; returns the remainder after the
matched span. -/
def matchImageTagAt (cs : Chars) : Option Chars :=
  if pyLower (cs.take 6) = "<image".toList then
    let rest := cs.drop 6
    let ws := rest.takeWhile Char.isWhitespace
    if ws.isEmpty then none
    else
      let after := rest.drop ws.length
      findSrcCandidate after (after.takeWhile (fun c => c ≠ '>')).length
  else none

/-- `re.sub` of the image-tag pattern: leftmost matches removed, scanning
continuing after each removed span. -/
def stripImageTagsGo : ℕ → Chars → Chars
  | 0, cs => cs
  | _ + 1, [] => []
  | fuel + 1, c :: cs =>
      match matchImageTagAt (c :: cs) with
      | some rest => stripImageTagsGo fuel rest
      | none => c :: stripImageTagsGo fuel cs

/-- `re.sub(r"<[^>]+>", "", s)`: at each `<`, the greedy `[^>]+` runs to
the first `>` (at least one character in between); matched spans are
removed, everything else is kept. -/
def stripAngleTagsGo : ℕ → Chars → Chars
  | 0, cs => cs
  | _ + 1, [] => []
  | fuel + 1, c :: cs =>
      if c = '<' then
        let pre := cs.takeWhile (fun x => x ≠ '>')
        if pre.isEmpty then c :: stripAngleTagsGo fuel cs
        else if pre.length < cs.length then
          stripAngleTagsGo fuel (cs.drop (pre.length + 1))
        else c :: stripAngleTagsGo fuel cs
      else c :: stripAngleTagsGo fuel cs

/-- `is_image_only_chapter(content)` from `src/proofing/utils.py`:
`False` for whitespace-only content, otherwise strip the
`<<<IMAGE_START>>>…<<<IMAGE_END>>>` blocks and the `<image … src="…" …>`
tags and test whether any non-whitespace text remains. -/
def is_image_only_chapter (content : Chars) : Bool :=
  let stripped := pyStrip content
  if stripped.isEmpty then false
  else
    let content_no_image_blocks := stripImageBlocksGo (stripped.length + 1) stripped
    let content_no_images :=
      stripImageTagsGo (content_no_image_blocks.length + 1) content_no_image_blocks
    (pyStrip content_no_images).isEmpty

/-- The `html_only` test of `run_translation_phase` (line 174):
`re.sub(r"<[^>]+>", "", content).strip() == ""`. -/
def html_only (content : Chars) : Bool :=
  (pyStrip (stripAngleTagsGo (content.length + 1) content)).isEmpty

/-- How the per-file loop of `run_translation_phase` disposes of one
source file's content (lines 163–186): `skipEmpty` — `continue` with *no*
output file written and no translator call; `copyThrough written` — the
content is written verbatim to the output and the translator is never
invoked; `runTranslation ocrFirst` — the loop proceeds to invoke the
translator (running OCR first when the content contains `"<img"`). -/
inductive ChapterDispatch where
  | skipEmpty
  | copyThrough (written : Chars)
  | runTranslation (ocrFirst : Bool)
  deriving Repr, DecidableEq

/-- The early-exit classification sequence of the per-file translation
loop: empty check, image-only check, markup-only check, then
translation. -/
def chapterDispatch (content : Chars) : ChapterDispatch :=
  if (pyStrip content).isEmpty then ChapterDispatch.skipEmpty
  else if is_image_only_chapter content then ChapterDispatch.copyThrough content
  else if html_only content then ChapterDispatch.copyThrough content
  else ChapterDispatch.runTranslation (containsSeq "<img".toList content)

/-- Whitespace-only content is never classified image-only (the guard at
the top of `is_image_only_chapter`). -/
theorem is_image_only_of_strip_empty (c : Chars)
    (h : (pyStrip c).isEmpty = true) : is_image_only_chapter c = false := by
  simp [is_image_only_chapter, h]

/-- C3 (amended): a file with no non-whitespace content is skipped with
*no* output written and no translator call; a file classified image-only,
or one that is pure markup with no extractable text, is copied through to
the output unchanged (output content equals input content) with the
translation provider never invoked. -/
theorem claim_C3_copy_through_amended (c : Chars) :
    ((pyStrip c).isEmpty = true → chapterDispatch c = ChapterDispatch.skipEmpty) ∧
    (is_image_only_chapter c = true ∨
        ((pyStrip c).isEmpty = false ∧ html_only c = true) →
      chapterDispatch c = ChapterDispatch.copyThrough c) := by
  constructor
  · intro h
    simp [chapterDispatch, h]
  · intro h
    rcases h with himg | ⟨hne, hhtml⟩
    · have hs : (pyStrip c).isEmpty = false := by
        cases hstrip : (pyStrip c).isEmpty with
        | false => rfl
        | true =>
            rw [is_image_only_of_strip_empty c hstrip] at himg
            cases himg
      simp [chapterDispatch, hs, himg]
    · cases him : is_image_only_chapter c with
      | true => simp [chapterDispatch, hne, him]
      | false => simp [chapterDispatch, hne, him, hhtml]

/-- Counterexample to C3 as stated: a whitespace-only file is *not*
copied through to the output (the claim says output content equals input
content); the code skips it without writing anything. -/
theorem claim_C3_counterexample :
    chapterDispatch "  ".toList = ChapterDispatch.skipEmpty ∧
    chapterDispatch "  ".toList ≠ ChapterDispatch.copyThrough "  ".toList := by
  constructor
  · decide
  · decide

/-- Closed witness for the amended copy-through theorem: a pure-markup
file `"<p>"` is copied through unchanged. -/
theorem claim_C3_copy_through_amended_witness :
    chapterDispatch "<p>".toList = ChapterDispatch.copyThrough "<p>".toList :=
  (claim_C3_copy_through_amended "<p>".toList).2 (Or.inr ⟨by decide, by decide⟩)

/-! ## Image-tag placeholder round trip

`MultiProviderTranslator.translate` from
`src/translation/multi_provider_translator.py`: the placeholder
substitution before translation (lines 111–118,
`re.compile(r'(<img[^>]*>)')` with `store_image_tag` returning
`__IMAGE_TAG_{len(image_tags)-1}__`) and the restoration after
translation (lines 189–192, `translated_text.replace(placeholder, tag)`
per enumerated tag).  The provider is instantiated as the identity on the
placeholder text (the claim's "provider returns the placeholder tokens
verbatim"). -/

/-- The placeholder marker fragment `IMAGE_TAG`. -/
def ITAG : Chars := "IMAGE_TAG".toList

/-- Decimal digit character (for `f"{n}"`). -/
def digitChar (d : ℕ) : Char := Char.ofNat (48 + d)

/-- Fuel-driven decimal rendering of a natural number. -/
def natToCharsAux : ℕ → ℕ → Chars
  | 0, _ => []
  | fuel + 1, n => if n < 10 then [digitChar n]
      else natToCharsAux fuel (n / 10) ++ [digitChar (n % 10)]

/-- Python's `f"{n}"` for a natural number. -/
def natToChars (n : ℕ) : Chars := natToCharsAux (n + 1) n

/-- The `f"__IMAGE_TAG_{n}__"` placeholder produced by
`store_image_tag` (with `n = len(image_tags) - 1` after the append). -/
def placeholderOf (n : ℕ) : Chars :=
  "__IMAGE_TAG_".toList ++ natToChars n ++ "__".toList

/-- Match of `<img[^>]*>` at the head of `cs` (case-sensitive; the greedy
`[^>]*` runs to the first `>`): returns the matched tag and the
remainder. -/
def matchImgTagAt (cs : Chars) : Option (Chars × Chars) :=
  if startsWithCh "<img".toList cs then
    let rest0 := cs.drop 4
    let run := rest0.takeWhile (fun c => c ≠ '>')
    if run.length < rest0.length then
      some ("<img".toList ++ run ++ ['>'], rest0.drop (run.length + 1))
    else none
  else none

/-- `image_tag_pattern.sub(store_image_tag, text)`: leftmost
non-overlapping `<img[^>]*>` matches are replaced by numbered
placeholders while the matched tags are collected in order; `n` is the
running tag count. -/
def subImgTagsGo : ℕ → Chars → ℕ → Chars × List Chars
  | 0, cs, _ => (cs, [])
  | _ + 1, [], _ => ([], [])
  | fuel + 1, c :: cs, n =>
      match matchImgTagAt (c :: cs) with
      | some (tag, rest) =>
          let next := subImgTagsGo fuel rest (n + 1)
          (placeholderOf n ++ next.1, tag :: next.2)
      | none =>
          let next := subImgTagsGo fuel cs n
          (c :: next.1, next.2)

/-- The substitution pass of `MultiProviderTranslator.translate`:
`(text_with_placeholders, image_tags)`. -/
def subImgTags (text : Chars) : Chars × List Chars :=
  subImgTagsGo (text.length + 1) text 0

/-- Python's `str.replace(pat, rep)` (all non-overlapping occurrences,
left to right), fuel-driven; the modelled call sites always pass a
non-empty pattern. -/
def pyReplaceGo : ℕ → Chars → Chars → Chars → Chars
  | 0, s, _, _ => s
  | _ + 1, [], _, _ => []
  | fuel + 1, c :: cs, pat, rep =>
      if pat.isEmpty then c :: cs
      else if startsWithCh pat (c :: cs) then
        rep ++ pyReplaceGo fuel ((c :: cs).drop pat.length) pat rep
      else c :: pyReplaceGo fuel cs pat rep

/-- `s.replace(pat, rep)` with canonical fuel. -/
def pyReplace (s pat rep : Chars) : Chars := pyReplaceGo (s.length + 1) s pat rep

/-- The restoration loop of `MultiProviderTranslator.translate`
(lines 189–192): for each enumerated tag, replace its placeholder in the
translated text. -/
def restoreImgTagsGo : Chars → ℕ → List Chars → Chars
  | txt, _, [] => txt
  | txt, i, tag :: rest =>
      restoreImgTagsGo (pyReplace txt (placeholderOf i) tag) (i + 1) rest

/-- Restore all placeholders, starting from index 0. -/
def restoreImgTags (txt : Chars) (tags : List Chars) : Chars :=
  restoreImgTagsGo txt 0 tags

/-- Counterexample to C9 as stated: a source text that already contains
the literal placeholder token `__IMAGE_TAG_0__` breaks the round trip —
the single image tag of the input is duplicated into the position of the
pre-existing token, so the output neither equals the input nor contains
exactly the original tags at the placeholder positions. -/
theorem claim_C9_counterexample :
    restoreImgTags (subImgTags "__IMAGE_TAG_0__<img a>".toList).1
        (subImgTags "__IMAGE_TAG_0__<img a>".toList).2
      = "<img a><img a>".toList ∧
    restoreImgTags (subImgTags "__IMAGE_TAG_0__<img a>".toList).1
        (subImgTags "__IMAGE_TAG_0__<img a>".toList).2
      ≠ "__IMAGE_TAG_0__<img a>".toList ∧
    (subImgTags "__IMAGE_TAG_0__<img a>".toList).2 = ["<img a>".toList] := by
  refine ⟨by decide, by decide, by decide⟩

/-- `startsWithCh p s` holds exactly when `s` extends `p`. -/
theorem startsWithCh_iff (p : Chars) : ∀ s : Chars,
    startsWithCh p s = true ↔ ∃ u, s = p ++ u := by
  induction p with
  | nil =>
      intro s
      constructor
      · intro _; exact ⟨s, rfl⟩
      · intro _; rfl
  | cons a p' ih =>
      intro s
      cases s with
      | nil =>
          constructor
          · intro h; simp [startsWithCh] at h
          · rintro ⟨u, hu⟩; exact absurd hu (by simp)
      | cons b s' =>
          simp only [startsWithCh, Bool.and_eq_true, beq_iff_eq]
          constructor
          · rintro ⟨hab, h2⟩
            obtain ⟨u, hu⟩ := (ih s').mp h2
            exact ⟨u, by rw [hu, hab]; rfl⟩
          · rintro ⟨u, hu⟩
            injection hu with h1 h2
            exact ⟨h1.symm, (ih s').mpr ⟨u, h2⟩⟩

/-- `containsSeq p s` holds exactly when `p` occurs somewhere in `s`. -/
theorem containsSeq_iff (p : Chars) : ∀ s : Chars,
    containsSeq p s = true ↔ ∃ x u, s = x ++ p ++ u := by
  intro s
  induction s with
  | nil =>
      simp only [containsSeq, List.isEmpty_iff]
      constructor
      · intro h; exact ⟨[], [], by simp [h]⟩
      · rintro ⟨x, u, hu⟩
        rcases List.append_eq_nil.mp (List.append_eq_nil.mp hu.symm).1 with ⟨_, h2⟩
        exact h2
  | cons c cs ih =>
      simp only [containsSeq, Bool.or_eq_true]
      constructor
      · rintro (h | h)
        · obtain ⟨u, hu⟩ := (startsWithCh_iff p (c :: cs)).mp h
          exact ⟨[], u, by simp [hu]⟩
        · obtain ⟨x, u, hu⟩ := ih.mp h
          exact ⟨c :: x, u, by simp [hu]⟩
      · rintro ⟨x, u, hu⟩
        cases x with
        | nil =>
            left
            exact (startsWithCh_iff p (c :: cs)).mpr ⟨u, by simpa using hu⟩
        | cons d x' =>
            right
            apply ih.mpr
            have h := hu
            simp only [List.cons_append, List.cons.injEq] at h
            exact ⟨x', u, h.2⟩

/-- Occurrence transfers through an enclosing context. -/
theorem containsSeq_of_middle (p a t b : Chars) (h : containsSeq p t = true) :
    containsSeq p (a ++ t ++ b) = true := by
  obtain ⟨x, u, hu⟩ := (containsSeq_iff p t).mp h
  exact (containsSeq_iff p _).mpr ⟨a ++ x, u ++ b, by simp [hu]⟩

/-- An occurrence-free string has occurrence-free infixes. -/
theorem containsSeq_false_mono (p a t b : Chars)
    (h : containsSeq p (a ++ t ++ b) = false) : containsSeq p t = false := by
  cases hc : containsSeq p t with
  | false => rfl
  | true => rw [containsSeq_of_middle p a t b hc] at h; cases h

/-- Occurrence-free strings have occurrence-free prefixes. -/
theorem containsSeq_false_of_append_left (p a b : Chars)
    (h : containsSeq p (a ++ b) = false) : containsSeq p a = false := by
  have := containsSeq_false_mono p [] a b
  simp only [List.nil_append] at this
  exact this h

/-- Occurrence-free strings have occurrence-free suffixes. -/
theorem containsSeq_false_of_append_right (p a b : Chars)
    (h : containsSeq p (a ++ b) = false) : containsSeq p b = false := by
  have := containsSeq_false_mono p a b []
  simp only [List.append_nil] at this
  exact this h

/-- Decimal digits never run out and are digit characters. -/
theorem natToCharsAux_spec : ∀ (fuel n : ℕ), n < fuel →
    natToCharsAux fuel n ≠ [] ∧ ∀ c ∈ natToCharsAux fuel n, c.isDigit = true := by
  intro fuel
  induction fuel with
  | zero => intro n h; omega
  | succ f ih =>
      intro n h
      by_cases h10 : n < 10
      · refine ⟨by simp [natToCharsAux, h10], ?_⟩
        intro c hc
        simp only [natToCharsAux, h10, if_true, List.mem_singleton] at hc
        subst hc
        interval_cases n <;> decide
      · have hdiv : n / 10 < f := by
          have := Nat.div_lt_self (by omega : 0 < n) (by norm_num : 1 < 10)
          omega
        obtain ⟨hne, hdig⟩ := ih (n / 10) hdiv
        constructor
        · simp [natToCharsAux, h10]
        · intro c hc
          simp only [natToCharsAux, h10, if_false, List.mem_append,
            List.mem_singleton] at hc
          rcases hc with hc | hc
          · exact hdig c hc
          · subst hc
            have hm : n % 10 < 10 := Nat.mod_lt _ (by norm_num)
            interval_cases hmod : n % 10 <;> simp_all <;> decide

/-- `natToChars n` is non-empty. -/
theorem natToChars_ne_nil (n : ℕ) : natToChars n ≠ [] :=
  (natToCharsAux_spec (n + 1) n (Nat.lt_succ_self n)).1

/-- Every character of `natToChars n` is a decimal digit. -/
theorem natToChars_digits (n : ℕ) : ∀ c ∈ natToChars n, c.isDigit = true :=
  (natToCharsAux_spec (n + 1) n (Nat.lt_succ_self n)).2

/-- The rendering does not depend on the fuel, as long as it suffices. -/
theorem natToCharsAux_fuel : ∀ (f₁ f₂ n : ℕ), n < f₁ → n < f₂ →
    natToCharsAux f₁ n = natToCharsAux f₂ n := by
  intro f₁
  induction f₁ with
  | zero => intro f₂ n h; omega
  | succ f ih =>
      intro f₂ n h1 h2
      cases f₂ with
      | zero => omega
      | succ g =>
          by_cases h10 : n < 10
          · simp [natToCharsAux, h10]
          · have hn : 0 < n := by omega
            have hdiv : n / 10 < n := Nat.div_lt_self hn (by norm_num)
            simp only [natToCharsAux, h10, if_false]
            rw [ih g (n / 10) (by omega) (by omega)]

/-- Step equation of the decimal rendering for `n ≥ 10`. -/
theorem natToChars_step (n : ℕ) (h : ¬ n < 10) :
    natToChars n = natToChars (n / 10) ++ [digitChar (n % 10)] := by
  have hn : 0 < n := by omega
  have hdiv : n / 10 < n := Nat.div_lt_self hn (by norm_num)
  have e1 : natToCharsAux (n + 1) n = natToCharsAux n (n / 10) ++ [digitChar (n % 10)] := by
    rw [natToCharsAux, if_neg h]
  show natToCharsAux (n + 1) n = _
  rw [e1, natToCharsAux_fuel n (n / 10 + 1) (n / 10) (by omega) (by omega)]
  rfl

/-- Base equation of the decimal rendering for `n < 10`. -/
theorem natToChars_small (n : ℕ) (h : n < 10) : natToChars n = [digitChar n] := by
  simp [natToChars, natToCharsAux, h]

/-- Digit characters are distinct for distinct digits. -/
theorem digitChar_inj : ∀ d₁, d₁ < 10 → ∀ d₂, d₂ < 10 →
    digitChar d₁ = digitChar d₂ → d₁ = d₂ := by decide

/-- The decimal rendering is injective. -/
theorem natToChars_inj : ∀ a b : ℕ, natToChars a = natToChars b → a = b := by
  intro a
  induction a using Nat.strong_induction_on with
  | _ a ih =>
      intro b hab
      by_cases ha : a < 10 <;> by_cases hb : b < 10
      · rw [natToChars_small a ha, natToChars_small b hb] at hab
        injection hab with h1
        exact digitChar_inj a ha b hb h1
      · rw [natToChars_small a ha, natToChars_step b hb] at hab
        have := congrArg List.length hab
        have hne := natToChars_ne_nil (b / 10)
        simp at this
        cases hd : natToChars (b / 10) with
        | nil => exact absurd hd hne
        | cons c cs => rw [hd] at this; simp at this
      · rw [natToChars_step a ha, natToChars_small b hb] at hab
        have := congrArg List.length hab
        have hne := natToChars_ne_nil (a / 10)
        cases hd : natToChars (a / 10) with
        | nil => exact absurd hd hne
        | cons c cs => rw [hd] at this; simp at this
      · rw [natToChars_step a ha, natToChars_step b hb] at hab
        have hrev := congrArg List.reverse hab
        simp only [List.reverse_append, List.reverse_cons, List.reverse_nil,
          List.nil_append, List.singleton_append, List.cons.injEq] at hrev
        obtain ⟨hdig, htail⟩ := hrev
        have hmod : a % 10 = b % 10 :=
          digitChar_inj _ (Nat.mod_lt _ (by norm_num)) _ (Nat.mod_lt _ (by norm_num)) hdig
        have hdivs : natToChars (a / 10) = natToChars (b / 10) := by
          have := congrArg List.reverse htail
          simpa using this
        have hdiveq : a / 10 = b / 10 :=
          ih (a / 10) (Nat.div_lt_self (by omega) (by norm_num)) (b / 10) hdivs
        omega

/-- All-digit strings. -/
def AllDigit (d : Chars) : Prop := ∀ c ∈ d, c.isDigit = true

/-- A digit run followed by an underscore is determined: two such runs
that agree as strings are equal. -/
theorem digit_run_eq : ∀ (a c y z : Chars), AllDigit a → AllDigit c →
    a ++ '_' :: y = c ++ '_' :: z → a = c ∧ y = z := by
  intro a
  induction a with
  | nil =>
      intro c y z _ hc h
      cases c with
      | nil => simpa using h
      | cons ch c' =>
          simp only [List.nil_append, List.cons_append, List.cons.injEq] at h
          have := hc ch (by simp)
          rw [← h.1] at this
          simp at this
  | cons ch a' ih =>
      intro c y z ha hc h
      cases c with
      | nil =>
          simp only [List.cons_append, List.nil_append, List.cons.injEq] at h
          have := ha ch (by simp)
          rw [h.1] at this
          simp at this
      | cons ch₂ c' =>
          simp only [List.cons_append, List.cons.injEq] at h
          obtain ⟨h1, h2⟩ := h
          obtain ⟨h3, h4⟩ := ih c' y z
            (fun x hx => ha x (List.mem_cons_of_mem _ hx))
            (fun x hx => hc x (List.mem_cons_of_mem _ hx)) h2
          exact ⟨by rw [h1, h3], h4⟩

/-- Structure of a placeholder: two underscores, the `IMAGE_TAG` marker,
an underscore, the decimal index, two underscores. -/
theorem placeholderOf_eq (n : ℕ) :
    placeholderOf n = '_' :: '_' :: (ITAG ++ '_' :: (natToChars n ++ '_' :: '_' :: [])) := by
  show "__IMAGE_TAG_".toList ++ natToChars n ++ "__".toList = _
  have h1 : "__IMAGE_TAG_".toList = '_' :: '_' :: (ITAG ++ ['_']) := by decide
  rw [h1]
  simp [ITAG]

/-- `IMAGE_TAG` contains no two consecutive underscores. -/
theorem itag_no_uu : containsSeq ['_', '_'] ITAG = false := by decide

/-- `IMAGE_TAG` does not end with an underscore. -/
theorem itag_not_end_underscore (x : Chars) : ITAG ≠ x ++ ['_'] := by
  intro h
  have := congrArg List.getLast? h
  rw [List.getLast?_concat] at this
  simp [ITAG, List.getLast?] at this

/-- The borders of `IMAGE_TAG` are trivial: a string that is both a
prefix and a suffix of it is empty or the whole marker. -/
theorem itag_border : ∀ c ∈ ITAG.tails, c ∈ ITAG.inits → c = [] ∨ c = ITAG := by
  decide

/-- Crossing lemma: if `IMAGE_TAG` is a prefix of `a ++ "__" ++ z` with
`a` non-empty, then it already fits inside `a`. -/
theorem cross_underscores (a z u : Chars) (ha : a ≠ [])
    (h : a ++ '_' :: '_' :: z = ITAG ++ u) : ∃ u', a = ITAG ++ u' := by
  rcases List.append_eq_append_iff.mp h with ⟨w, hw1, hw2⟩ | ⟨w, hw1, hw2⟩
  · -- ITAG = a ++ w and '_'::'_'::z = w ++ u
    cases w with
    | nil => exact ⟨[], by simpa using hw1.symm⟩
    | cons b w' =>
        cases w' with
        | nil =>
            simp only [List.cons_append, List.nil_append, List.cons.injEq] at hw2
            rw [← hw2.1] at hw1
            exact absurd hw1 (itag_not_end_underscore a)
        | cons b₂ w'' =>
            simp only [List.cons_append, List.cons.injEq] at hw2
            obtain ⟨hb, hb₂, hz⟩ := hw2
            rw [← hb, ← hb₂] at hw1
            have : containsSeq ['_', '_'] ITAG = true := by
              apply (containsSeq_iff _ _).mpr
              exact ⟨a, w'', by simp [hw1]⟩
            rw [itag_no_uu] at this
            cases this
  · exact ⟨w, hw1⟩

/-- A list whose `takeWhile` run is proper splits as run, first failing
character, and the tail after it. -/
theorem takeWhile_drop_decomp (p : Char → Bool) :
    ∀ l : Chars, (l.takeWhile p).length < l.length →
    ∃ d tl, l = l.takeWhile p ++ d :: tl ∧ p d = false ∧
      tl = l.drop ((l.takeWhile p).length + 1) := by
  intro l
  induction l with
  | nil => intro h; simp at h
  | cons c cs ih =>
      intro h
      cases hp : p c with
      | false =>
          refine ⟨c, cs, ?_, hp, ?_⟩
          · simp [List.takeWhile_cons, hp]
          · simp [List.takeWhile_cons, hp]
      | true =>
          have h' : (cs.takeWhile p).length < cs.length := by
            simp only [List.takeWhile_cons, hp, if_true, List.length_cons] at h
            omega
          obtain ⟨d, tl, hdc, hpd, htl⟩ := ih h'
          refine ⟨d, tl, ?_, hpd, ?_⟩
          · simp only [List.takeWhile_cons, hp, if_true, List.cons_append]
            rw [← hdc]
          · simp only [List.takeWhile_cons, hp, if_true, List.length_cons]
            rw [htl]
            simp [List.drop_succ_cons]

/-- A successful `<img[^>]*>` match splits the input as tag ++ rest. -/
theorem matchImgTagAt_split (s tag rest : Chars)
    (h : matchImgTagAt s = some (tag, rest)) : s = tag ++ rest := by
  simp only [matchImgTagAt] at h
  split at h
  case isFalse => cases h
  case isTrue hsw =>
      split at h
      case isFalse => cases h
      case isTrue hlen =>
          simp only [Option.some.injEq, Prod.mk.injEq] at h
          obtain ⟨htag, hrest⟩ := h
          subst htag hrest
          obtain ⟨u, hu⟩ := (startsWithCh_iff "<img".toList s).mp hsw
          have h4 : ("<img".toList : Chars).length = 4 := by decide
          have hu4 : s.drop 4 = u := by rw [hu, ← h4, List.drop_left]
          obtain ⟨d, tl, hdc, hpd, htl⟩ := takeWhile_drop_decomp _ (s.drop 4) hlen
          have hd : d = '>' := by simpa using hpd
          subst hd
          rw [hu4] at hdc htl ⊢
          rw [← htl, hu]
          conv_lhs => rw [hdc]
          simp

/-- `IMAGE_TAG` never starts an underscore-headed string. -/
theorem itag_ne_underscore_head (t u : Chars) : ITAG ++ u ≠ '_' :: t := by
  intro h
  rw [show ITAG = 'I' :: "MAGE_TAG".toList from rfl] at h
  simp only [List.cons_append, List.cons.injEq] at h
  exact absurd h.1 (by decide)

/-- `IMAGE_TAG` never starts a digit-headed string. -/
theorem itag_ne_digit_head (c : Char) (hc : c.isDigit = true) (t u : Chars) :
    ITAG ++ u ≠ c :: t := by
  intro h
  rw [show ITAG = 'I' :: "MAGE_TAG".toList from rfl] at h
  simp only [List.cons_append, List.cons.injEq] at h
  rw [← h.1] at hc
  exact absurd hc (by decide)

/-- Every occurrence of `IMAGE_TAG` in the scanner output, relative to a
processed prefix `z` free of the marker, lies inside an inserted
placeholder: the text right after the occurrence reads
`_<decimal index>__` with index at least the running counter. -/
theorem itag_scan : ∀ (fuel : ℕ) (cs : Chars) (n : ℕ) (z x u : Chars),
    containsSeq ITAG (z ++ cs) = false →
    z ++ (subImgTagsGo fuel cs n).1 = x ++ ITAG ++ u →
    ∃ j w, n ≤ j ∧ u = '_' :: (natToChars j ++ '_' :: '_' :: w) := by
  intro fuel
  induction fuel with
  | zero =>
      intro cs n z x u hclean heq
      exfalso
      have hocc : containsSeq ITAG (z ++ cs) = true := by
        apply (containsSeq_iff ITAG (z ++ cs)).mpr
        exact ⟨x, u, by simpa [subImgTagsGo] using heq⟩
      rw [hclean] at hocc
      cases hocc
  | succ fuel ih =>
      intro cs n z x u hclean heq
      cases cs with
      | nil =>
          exfalso
          have hocc : containsSeq ITAG (z ++ ([] : Chars)) = true := by
            apply (containsSeq_iff ITAG (z ++ ([] : Chars))).mpr
            exact ⟨x, u, by simpa [subImgTagsGo] using heq⟩
          rw [hclean] at hocc
          cases hocc
      | cons c cs' =>
          cases hm : matchImgTagAt (c :: cs') with
          | none =>
              apply ih cs' n (z ++ [c]) x u
              · have hz : (z ++ [c]) ++ cs' = z ++ c :: cs' := by simp
                rw [hz]
                exact hclean
              · have e : z ++ (subImgTagsGo (fuel + 1) (c :: cs') n).1
                    = (z ++ [c]) ++ (subImgTagsGo fuel cs' n).1 := by
                  simp [subImgTagsGo, hm]
                rw [← e]
                exact heq
          | some pr =>
              obtain ⟨tag, rest⟩ := pr
              have hsplit : c :: cs' = tag ++ rest := matchImgTagAt_split _ _ _ hm
              have hcleanrest : containsSeq ITAG rest = false := by
                have h1 : containsSeq ITAG (c :: cs') = false :=
                  containsSeq_false_of_append_right ITAG z _ hclean
                rw [hsplit] at h1
                exact containsSeq_false_of_append_right ITAG tag _ h1
              have hcleanz : containsSeq ITAG z = false :=
                containsSeq_false_of_append_left ITAG z _ hclean
              have e : (subImgTagsGo (fuel + 1) (c :: cs') n).1
                  = placeholderOf n ++ (subImgTagsGo fuel rest (n + 1)).1 := by
                simp [subImgTagsGo, hm]
              have hph : placeholderOf n ++ (subImgTagsGo fuel rest (n + 1)).1
                  = '_' :: '_' :: (ITAG ++ '_' ::
                      (natToChars n ++ '_' :: '_' :: (subImgTagsGo fuel rest (n + 1)).1)) := by
                rw [placeholderOf_eq]
                simp
              have heq2 : z ++ ('_' :: '_' :: (ITAG ++ '_' ::
                    (natToChars n ++ '_' :: '_' :: (subImgTagsGo fuel rest (n + 1)).1)))
                  = x ++ (ITAG ++ u) := by
                rw [← hph, ← e]
                exact heq.trans (List.append_assoc x ITAG u)
              rcases List.append_eq_append_iff.mp heq2 with ⟨w, hw1, hw2⟩ | ⟨w, hw1, hw2⟩
              · -- x = z ++ w; the marker occurrence starts inside the placeholder
                cases w with
                | nil =>
                    exfalso
                    simp only [List.nil_append] at hw2
                    exact itag_ne_underscore_head _ _ hw2.symm
                | cons w₀ w' =>
                    simp only [List.cons_append, List.cons.injEq] at hw2
                    obtain ⟨hw₀, hw2⟩ := hw2
                    cases w' with
                    | nil =>
                        exfalso
                        simp only [List.nil_append] at hw2
                        exact itag_ne_underscore_head _ _ hw2.symm
                    | cons w₁ w'' =>
                        simp only [List.cons_append, List.cons.injEq] at hw2
                        obtain ⟨hw₁, hR⟩ := hw2
                        -- hR : ITAG ++ '_' :: (digits ++ '_' :: '_' :: out) = w'' ++ (ITAG ++ u)
                        cases w'' with
                        | nil =>
                            -- the occurrence is the inserted marker itself
                            simp only [List.nil_append] at hR
                            have hu : u = '_' ::
                                (natToChars n ++ '_' :: '_' :: (subImgTagsGo fuel rest (n + 1)).1) :=
                              (List.append_cancel_left hR).symm
                            exact ⟨n, (subImgTagsGo fuel rest (n + 1)).1, le_refl n, hu⟩
                        | cons v₀ v' =>
                            rcases List.append_eq_append_iff.mp hR with ⟨v, hv1, hv2⟩ | ⟨v, hv1, hv2⟩
                            · -- v₀ :: v' = ITAG ++ v
                              cases v with
                              | nil =>
                                  exfalso
                                  simp only [List.nil_append] at hv2
                                  exact itag_ne_underscore_head _ _ hv2.symm
                              | cons s₀ s' =>
                                  simp only [List.cons_append, List.cons.injEq] at hv2
                                  obtain ⟨hs₀, hF⟩ := hv2
                                  -- hF : digits ++ '_' :: '_' :: out = s' ++ (ITAG ++ u)
                                  rcases List.append_eq_append_iff.mp hF with
                                    ⟨t, ht1, ht2⟩ | ⟨t, ht1, ht2⟩
                                  · -- s' = digits ++ t
                                    cases t with
                                    | nil =>
                                        exfalso
                                        simp only [List.nil_append] at ht2
                                        exact itag_ne_underscore_head _ _ ht2.symm
                                    | cons t₀ t' =>
                                        simp only [List.cons_append, List.cons.injEq] at ht2
                                        obtain ⟨ht₀, ht2⟩ := ht2
                                        cases t' with
                                        | nil =>
                                            exfalso
                                            simp only [List.nil_append] at ht2
                                            exact itag_ne_underscore_head _ _ ht2.symm
                                        | cons t₁ t'' =>
                                            simp only [List.cons_append, List.cons.injEq] at ht2
                                            obtain ⟨ht₁, hout⟩ := ht2
                                            -- recurse into the scanner output after the placeholder
                                            have hcr : containsSeq ITAG (([] : Chars) ++ rest) = false := by
                                              simpa using hcleanrest
                                            obtain ⟨j, w, hj, hw⟩ := ih rest (n + 1) [] t'' u hcr
                                              (by rw [List.nil_append, hout, List.append_assoc])
                                            exact ⟨j, w, by omega, hw⟩
                                  · -- digits = s' ++ t and ITAG ++ u = t ++ '_' :: '_' :: out
                                    cases t with
                                    | nil =>
                                        exfalso
                                        simp only [List.nil_append] at ht2
                                        exact itag_ne_underscore_head _ _ ht2
                                    | cons t₀ t' =>
                                        exfalso
                                        have hmem : t₀ ∈ natToChars n := by
                                          rw [ht1]
                                          exact List.mem_append_right s' (List.mem_cons_self t₀ t')
                                        have hdig := natToChars_digits n t₀ hmem
                                        simp only [List.cons_append] at ht2
                                        exact itag_ne_digit_head t₀ hdig _ _ ht2
                            · -- ITAG = (v₀ :: v') ++ v and ITAG ++ u = v ++ '_' :: digits…
                              cases v with
                              | nil =>
                                  exfalso
                                  simp only [List.nil_append] at hv2
                                  exact itag_ne_underscore_head _ _ hv2
                              | cons v₁ vtl =>
                                  rcases List.append_eq_append_iff.mp hv2 with
                                    ⟨t, ht1, ht2⟩ | ⟨t, ht1, ht2⟩
                                  · -- v₁ :: vtl = ITAG ++ t : length contradiction
                                    exfalso
                                    have hIlen : (ITAG : Chars).length = 9 := by decide
                                    have hl1 := congrArg List.length hv1
                                    have hl2 := congrArg List.length ht1
                                    simp only [hIlen, List.length_append, List.length_cons] at hl1 hl2
                                    omega
                                  · -- ITAG = (v₁ :: vtl) ++ t : border contradiction
                                    exfalso
                                    have hsuf : (v₁ :: vtl) ∈ ITAG.tails := by
                                      rw [List.mem_tails]
                                      exact ⟨v₀ :: v', hv1.symm⟩
                                    have hpre : (v₁ :: vtl) ∈ ITAG.inits := by
                                      rw [List.mem_inits]
                                      exact ⟨t, ht1.symm⟩
                                    rcases itag_border _ hsuf hpre with hnil | hfull
                                    · simp at hnil
                                    · rw [hfull] at hv1
                                      have hIlen : (ITAG : Chars).length = 9 := by decide
                                      have hl := congrArg List.length hv1
                                      simp only [hIlen, List.length_append, List.length_cons] at hl
                                      omega
              · -- z = x ++ w; the occurrence would sit inside the clean prefix
                exfalso
                cases w with
                | nil =>
                    simp only [List.nil_append] at hw2
                    exact itag_ne_underscore_head _ _ hw2
                | cons w₀ w' =>
                    obtain ⟨u', hu'⟩ := cross_underscores (w₀ :: w') _ u
                      (by simp) hw2.symm
                    have hocc : containsSeq ITAG z = true := by
                      apply (containsSeq_iff ITAG z).mpr
                      exact ⟨x, u', by rw [hw1, hu', List.append_assoc]⟩
                    rw [hcleanz] at hocc
                    cases hocc

/-- `pyReplaceGo` does not depend on the fuel, as long as it suffices. -/
theorem pyReplaceGo_fuel : ∀ (f₁ : ℕ) (s : Chars) (f₂ : ℕ) (pat rep : Chars),
    s.length < f₁ → s.length < f₂ →
    pyReplaceGo f₁ s pat rep = pyReplaceGo f₂ s pat rep := by
  intro f₁
  induction f₁ with
  | zero => intro s f₂ pat rep h1 _; exact absurd h1 (Nat.not_lt_zero _)
  | succ f ih =>
      intro s f₂ pat rep h1 h2
      cases f₂ with
      | zero => exact absurd h2 (Nat.not_lt_zero _)
      | succ g =>
          cases s with
          | nil => rfl
          | cons c cs =>
              have h1' : cs.length + 1 < f + 1 := by simpa using h1
              have h2' : cs.length + 1 < g + 1 := by simpa using h2
              cases hpe : pat.isEmpty with
              | true => simp [pyReplaceGo, hpe]
              | false =>
                  have hplen : 0 < pat.length := by
                    cases pat with
                    | nil => simp at hpe
                    | cons p ps => simp
                  cases hsw : startsWithCh pat (c :: cs) with
                  | true =>
                      simp only [pyReplaceGo, hpe, hsw, Bool.false_eq_true,
                        if_false, if_true]
                      rw [ih ((c :: cs).drop pat.length) g pat rep
                        (by simp [List.length_drop]; omega)
                        (by simp [List.length_drop]; omega)]
                  | false =>
                      simp only [pyReplaceGo, hpe, hsw, Bool.false_eq_true,
                        if_false]
                      rw [ih cs g pat rep (by omega) (by omega)]

/-- A string free of the pattern is returned unchanged by `pyReplaceGo`. -/
theorem pyReplaceGo_no_occurrence : ∀ (fuel : ℕ) (s pat rep : Chars),
    containsSeq pat s = false → pyReplaceGo fuel s pat rep = s := by
  intro fuel
  induction fuel with
  | zero => intro s pat rep _; rfl
  | succ f ih =>
      intro s pat rep h
      cases s with
      | nil => rfl
      | cons c cs =>
          have h1 : startsWithCh pat (c :: cs) = false := by
            cases hs : startsWithCh pat (c :: cs) with
            | false => rfl
            | true => rw [containsSeq, hs] at h; simp at h
          have h2 : containsSeq pat cs = false := by
            cases ht : containsSeq pat cs with
            | false => rfl
            | true => rw [containsSeq, ht] at h; simp at h
          cases hpe : pat.isEmpty with
          | true => simp [pyReplaceGo, hpe]
          | false =>
              simp only [pyReplaceGo, hpe, h1, Bool.false_eq_true, if_false]
              rw [ih cs pat rep h2]

/-- `s.replace(pat, rep)` is the identity on pattern-free strings. -/
theorem pyReplace_no_occurrence (s pat rep : Chars)
    (h : containsSeq pat s = false) : pyReplace s pat rep = s :=
  pyReplaceGo_no_occurrence (s.length + 1) s pat rep h

/-- Scanning `y ++ pat ++ z` when no pattern occurrence starts inside the
prefix `y`: the prefix is copied, the pattern is replaced once, and the
scan continues on `z` with the spent fuel. -/
theorem pyReplaceGo_hit : ∀ (y : Chars) (fuel : ℕ) (z pat rep : Chars), pat ≠ [] →
    (∀ y₂ : Chars, y₂ ≠ [] → (∃ y₁, y = y₁ ++ y₂) → ∀ u, y₂ ++ (pat ++ z) ≠ pat ++ u) →
    (y ++ pat ++ z).length < fuel →
    pyReplaceGo fuel (y ++ pat ++ z) pat rep
      = y ++ rep ++ pyReplaceGo (fuel - (y.length + pat.length)) z pat rep := by
  intro y
  induction y with
  | nil =>
      intro fuel z pat rep hpat _ hfuel
      cases fuel with
      | zero => exact absurd hfuel (Nat.not_lt_zero _)
      | succ f =>
          cases pat with
          | nil => exact absurd rfl hpat
          | cons p₀ p' =>
              have hzlen : z.length < f ∧ z.length < f + 1 - (p'.length + 1) := by
                simp only [List.nil_append, List.length_append,
                  List.length_cons] at hfuel
                omega
              have hs : ([] : Chars) ++ (p₀ :: p') ++ z = p₀ :: (p' ++ z) := by simp
              rw [hs]
              have hsw : startsWithCh (p₀ :: p') (p₀ :: (p' ++ z)) = true :=
                (startsWithCh_iff (p₀ :: p') (p₀ :: (p' ++ z))).mpr ⟨z, by simp⟩
              have hpe : (p₀ :: p').isEmpty = false := rfl
              simp only [pyReplaceGo, hpe, hsw, Bool.false_eq_true, if_false, if_true]
              have hdrop : (p₀ :: (p' ++ z)).drop (p₀ :: p').length = z := by
                rw [List.length_cons, List.drop_succ_cons, List.drop_left]
              rw [hdrop]
              rw [pyReplaceGo_fuel f z (f + 1 - (0 + (p₀ :: p').length)) (p₀ :: p') rep
                hzlen.1 (by simp only [List.length_cons, Nat.zero_add]; exact hzlen.2)]
              simp
  | cons c y' ih =>
      intro fuel z pat rep hpat hns hfuel
      cases fuel with
      | zero => exact absurd hfuel (Nat.not_lt_zero _)
      | succ f =>
          have hpe : pat.isEmpty = false := by
            cases pat with
            | nil => exact absurd rfl hpat
            | cons p ps => rfl
          have hsw : startsWithCh pat ((c :: y') ++ pat ++ z) = false := by
            cases hs : startsWithCh pat ((c :: y') ++ pat ++ z) with
            | false => rfl
            | true =>
                exfalso
                obtain ⟨u, hu⟩ := (startsWithCh_iff pat _).mp hs
                have hu' : (c :: y') ++ (pat ++ z) = pat ++ u := by
                  rw [← List.append_assoc]; exact hu
                exact hns (c :: y') (by simp) ⟨[], by simp⟩ u hu'
          have hcons : (c :: y') ++ pat ++ z = c :: (y' ++ pat ++ z) := by simp
          rw [hcons] at hsw ⊢
          simp only [pyReplaceGo, hpe, hsw, Bool.false_eq_true, if_false]
          have hns' : ∀ y₂ : Chars, y₂ ≠ [] → (∃ y₁, y' = y₁ ++ y₂) → ∀ u,
              y₂ ++ (pat ++ z) ≠ pat ++ u := by
            intro y₂ h2 hex u
            obtain ⟨y₁, hy⟩ := hex
            exact hns y₂ h2 ⟨c :: y₁, by simp [hy]⟩ u
          have hflen : (y' ++ pat ++ z).length < f := by
            have := hfuel
            rw [hcons] at this
            simpa using this
          rw [ih f z pat rep hpat hns' hflen]
          have harith : f - (y'.length + pat.length)
              = f + 1 - ((c :: y').length + pat.length) := by
            simp only [List.length_cons]
            omega
          rw [harith]
          simp

/-- `pyReplace` on `y ++ pat ++ z` with no pattern occurrence starting
inside `y`. -/
theorem pyReplace_hit (y z pat rep : Chars) (hpat : pat ≠ [])
    (hns : ∀ y₂ : Chars, y₂ ≠ [] → (∃ y₁, y = y₁ ++ y₂) → ∀ u,
      y₂ ++ (pat ++ z) ≠ pat ++ u) :
    pyReplace (y ++ pat ++ z) pat rep = y ++ rep ++ pyReplace z pat rep := by
  show pyReplaceGo ((y ++ pat ++ z).length + 1) (y ++ pat ++ z) pat rep = _
  rw [pyReplaceGo_hit y ((y ++ pat ++ z).length + 1) z pat rep hpat hns
    (Nat.lt_succ_self _)]
  have hf : (y ++ pat ++ z).length + 1 - (y.length + pat.length) = z.length + 1 := by
    simp only [List.length_append]
    omega
  rw [hf]
  rfl

/-- No occurrence of a placeholder starts strictly inside an
`IMAGE_TAG`-free prefix placed before that placeholder. -/
theorem no_ph_start_inside (n : ℕ) (x z : Chars)
    (hcleanx : containsSeq ITAG x = false) :
    ∀ y₂ : Chars, y₂ ≠ [] → (∃ y₁, x = y₁ ++ y₂) → ∀ u,
      y₂ ++ (placeholderOf n ++ z) ≠ placeholderOf n ++ u := by
  intro y₂ hne hex u heqq
  obtain ⟨y₁, hy⟩ := hex
  have hL : placeholderOf n ++ z
      = '_' :: '_' :: (ITAG ++ '_' :: (natToChars n ++ '_' :: '_' :: z)) := by
    rw [placeholderOf_eq]; simp
  have hR : placeholderOf n ++ u
      = '_' :: '_' :: (ITAG ++ '_' :: (natToChars n ++ '_' :: '_' :: u)) := by
    rw [placeholderOf_eq]; simp
  rw [hL, hR] at heqq
  cases y₂ with
  | nil => exact hne rfl
  | cons a y₃ =>
      simp only [List.cons_append, List.cons.injEq] at heqq
      obtain ⟨ha, heqq⟩ := heqq
      cases y₃ with
      | nil =>
          simp only [List.nil_append, List.cons.injEq] at heqq
          exact itag_ne_underscore_head _ _ heqq.2.symm
      | cons b y₄ =>
          simp only [List.cons_append, List.cons.injEq] at heqq
          obtain ⟨hb, heqq⟩ := heqq
          cases y₄ with
          | nil =>
              simp only [List.nil_append] at heqq
              exact itag_ne_underscore_head _ _ heqq.symm
          | cons d₀ y₅ =>
              obtain ⟨v, hv⟩ := cross_underscores (d₀ :: y₅) _ _ (by simp) heqq
              have hocc : containsSeq ITAG x = true := by
                apply (containsSeq_iff ITAG x).mpr
                refine ⟨y₁ ++ [a, b], v, ?_⟩
                rw [hy, hv]
                simp
              rw [hcleanx] at hocc
              cases hocc

/-- No placeholder of index at most the pre-increment counter occurs in
the scanner output produced from a marker-free remainder. -/
theorem noph_in_scan (fuel : ℕ) (rest : Chars) (n m : ℕ) (hm : m ≤ n)
    (hclean : containsSeq ITAG rest = false) :
    containsSeq (placeholderOf m) (subImgTagsGo fuel rest (n + 1)).1 = false := by
  cases hc : containsSeq (placeholderOf m) (subImgTagsGo fuel rest (n + 1)).1 with
  | false => rfl
  | true =>
      exfalso
      obtain ⟨y, y', hy⟩ := (containsSeq_iff _ _).mp hc
      have heqq : ([] : Chars) ++ (subImgTagsGo fuel rest (n + 1)).1
          = (y ++ ['_', '_']) ++ ITAG ++ ('_' :: (natToChars m ++ '_' :: '_' :: y')) := by
        rw [List.nil_append, hy, placeholderOf_eq]
        simp
      obtain ⟨j, w, hj, hw⟩ := itag_scan fuel rest (n + 1) [] (y ++ ['_', '_'])
        ('_' :: (natToChars m ++ '_' :: '_' :: y')) (by simpa using hclean) heqq
      injection hw with _ hw2
      obtain ⟨hd, _⟩ := digit_run_eq (natToChars m) (natToChars j) ('_' :: y') ('_' :: w)
        (natToChars_digits m) (natToChars_digits j) hw2
      have := natToChars_inj m j hd
      omega

/-- Restoration inverts substitution: for any marker-free remainder and
any processed marker-free prefix, restoring the collected tags into the
prefixed scanner output recovers the original text. -/
theorem restore_sub_general : ∀ (fuel : ℕ) (cs : Chars) (n : ℕ) (x : Chars),
    containsSeq ITAG (x ++ cs) = false →
    restoreImgTagsGo (x ++ (subImgTagsGo fuel cs n).1) n (subImgTagsGo fuel cs n).2
      = x ++ cs := by
  intro fuel
  induction fuel with
  | zero => intro cs n x _; rfl
  | succ fuel ih =>
      intro cs n x hclean
      cases cs with
      | nil => rfl
      | cons c cs' =>
          cases hm : matchImgTagAt (c :: cs') with
          | none =>
              have e1 : (subImgTagsGo (fuel + 1) (c :: cs') n).1
                  = c :: (subImgTagsGo fuel cs' n).1 := by simp [subImgTagsGo, hm]
              have e2 : (subImgTagsGo (fuel + 1) (c :: cs') n).2
                  = (subImgTagsGo fuel cs' n).2 := by simp [subImgTagsGo, hm]
              rw [e1, e2]
              have hx : x ++ c :: (subImgTagsGo fuel cs' n).1
                  = (x ++ [c]) ++ (subImgTagsGo fuel cs' n).1 := by simp
              rw [hx]
              have hc2 : containsSeq ITAG ((x ++ [c]) ++ cs') = false := by
                have hai : (x ++ [c]) ++ cs' = x ++ c :: cs' := by simp
                rw [hai]; exact hclean
              rw [ih cs' n (x ++ [c]) hc2]
              simp
          | some pr =>
              obtain ⟨tag, rest⟩ := pr
              have hsplit : c :: cs' = tag ++ rest := matchImgTagAt_split _ _ _ hm
              have hcleanrest : containsSeq ITAG rest = false := by
                have h1 : containsSeq ITAG (c :: cs') = false :=
                  containsSeq_false_of_append_right ITAG x _ hclean
                rw [hsplit] at h1
                exact containsSeq_false_of_append_right ITAG tag _ h1
              have hcleanx : containsSeq ITAG x = false :=
                containsSeq_false_of_append_left ITAG x _ hclean
              have e1 : (subImgTagsGo (fuel + 1) (c :: cs') n).1
                  = placeholderOf n ++ (subImgTagsGo fuel rest (n + 1)).1 := by
                simp [subImgTagsGo, hm]
              have e2 : (subImgTagsGo (fuel + 1) (c :: cs') n).2
                  = tag :: (subImgTagsGo fuel rest (n + 1)).2 := by
                simp [subImgTagsGo, hm]
              rw [e1, e2]
              rw [restoreImgTagsGo]
              have hassoc : x ++ (placeholderOf n ++ (subImgTagsGo fuel rest (n + 1)).1)
                  = x ++ placeholderOf n ++ (subImgTagsGo fuel rest (n + 1)).1 :=
                (List.append_assoc _ _ _).symm
              rw [hassoc]
              have hphne : placeholderOf n ≠ [] := by
                rw [placeholderOf_eq]; simp
              rw [pyReplace_hit x (subImgTagsGo fuel rest (n + 1)).1
                (placeholderOf n) tag hphne
                (no_ph_start_inside n x (subImgTagsGo fuel rest (n + 1)).1 hcleanx)]
              rw [pyReplace_no_occurrence (subImgTagsGo fuel rest (n + 1)).1
                (placeholderOf n) tag
                (noph_in_scan fuel rest n n (le_refl n) hcleanrest)]
              have hcleanXT : containsSeq ITAG ((x ++ tag) ++ rest) = false := by
                rw [List.append_assoc, ← hsplit]
                exact hclean
              rw [ih rest (n + 1) (x ++ tag) hcleanXT]
              rw [List.append_assoc, ← hsplit]

/-- C9 (amended): on a source text containing no occurrence of the
substring `IMAGE_TAG`, replacing every `<img[^>]*>` tag by its numbered
placeholder and, after an identity translation pass (the provider
returns the placeholder tokens verbatim), replacing each numbered
placeholder back by its collected tag reproduces the original text
exactly — every original image tag reappears at its placeholder
position. -/
theorem claim_C9_image_roundtrip_amended (text : Chars)
    (hclean : containsSeq ITAG text = false) :
    restoreImgTags (subImgTags text).1 (subImgTags text).2 = text := by
  have h := restore_sub_general (text.length + 1) text 0 [] (by simpa using hclean)
  simpa [restoreImgTags, subImgTags] using h

/-- Witness for the amended C9 claim on a concrete two-tag text. -/
theorem claim_C9_image_roundtrip_amended_witness :
    containsSeq ITAG "a<img x>b<img y>c".toList = false ∧
    restoreImgTags (subImgTags "a<img x>b<img y>c".toList).1
        (subImgTags "a<img x>b<img y>c".toList).2 = "a<img x>b<img y>c".toList :=
  ⟨by decide, claim_C9_image_roundtrip_amended _ (by decide)⟩

end GeminiTL
